import Mathlib

/-!
Verification of the request/response interception pipeline of `tool-call-index-patch.ts`
(the newer snapshot with thought-signature support).

The TypeScript source is embedded shallowly:

* JSON values are modelled by the inductive `Json`.  JSON numbers are modelled as exact
  integers (`Int`); payloads containing fractional numbers are treated as parse failures,
  which makes the pipeline pass them through unchanged, mirroring its defensive behaviour.
* JavaScript objects are association lists.  Property assignment (`setField`) updates an
  existing key in place (keeping its position, as JS does) or appends a fresh key.
  Assigning `undefined` to a property is modelled by removing the field: every read the
  code performs treats an `undefined`-valued property like an absent one, and
  `JSON.stringify` skips it.
* In-place mutation of parsed JSON trees is modelled by functional update: each function
  returns the updated tree/state alongside its original result.
* SSE text is modelled as `List Char`; `TextDecoder` chunks are the decoded chunk texts.
* Strings parse and serialize through a fuel-based recursive-descent `parseJson` and a
  `stringifyJson` that mirror `JSON.parse` / `JSON.stringify` on the integer fragment.
-/

/-- Model of a JavaScript JSON value.  Numbers are exact integers (see the header). -/
inductive Json where
  | null
  | bool (b : Bool)
  | num (n : Int)
  | str (s : String)
  | arr (elems : List Json)
  | obj (fields : List (String × Json))

/-- JavaScript truthiness of a JSON value (`!v` in the source negates this). -/
def truthy : Json → Bool
  | .null => false
  | .bool b => b
  | .num n => n != 0
  | .str s => s ≠ ""
  | .arr _ => true
  | .obj _ => true

/-- Test for `isPlainObject` from the source: not null, `typeof === "object"`, not an array. -/
def isObj : Json → Bool
  | .obj _ => true
  | _ => false

/-- Test for `isArray` from the source. -/
def isArr : Json → Bool
  | .arr _ => true
  | _ => false

/-- Test for `isValidArray` from the source: an array with at least one element. -/
def isValidArr : Json → Bool
  | .arr es => !es.isEmpty
  | _ => false

/-- Property read on an object's field list: first binding of the key, as JS objects
have unique keys; `none` models `undefined`. -/
def getField : List (String × Json) → String → Option Json
  | [], _ => none
  | (k', v) :: rest, k => if k' = k then some v else getField rest k

/-- JavaScript property assignment on a field list: an existing key keeps its position
and gets the new value, a fresh key is appended at the end. -/
def setField : List (String × Json) → String → Json → List (String × Json)
  | [], k, v => [(k, v)]
  | (k', v') :: rest, k, v =>
    if k' = k then (k', v) :: rest else (k', v') :: setField rest k v

/-- Removal of a property; models `prop = undefined` (observationally: every later read
yields `undefined` and `JSON.stringify` skips the property). -/
def delField : List (String × Json) → String → List (String × Json)
  | [], _ => []
  | (k', v') :: rest, k => if k' = k then rest else (k', v') :: delField rest k

/-- Model of `safeGet(obj, path)` from the source: walk a key path, returning `undefined`
as soon as the current value is not an object.  Arrays have no string-keyed properties
relevant to the paths used by the source, so they yield `undefined` one step later,
exactly as `(arr)["key"]` does. -/
def safeGetJ : Json → List String → Option Json
  | j, [] => some j
  | .obj fs, k :: ks =>
    match getField fs k with
    | some v => safeGetJ v ks
    | none => none
  | .arr _, _ :: ks =>
    -- `current = arr[key]` is `undefined` for the non-index keys the source uses;
    -- the walk then stops at the next iteration's object check unless ks is empty.
    if ks.isEmpty then none else none
  | _, _ :: _ => none

/-- Model of structural equality used where JS compares JSON-derived keys (`Map` keys
use SameValueZero; on parsed JSON this is reference/primitive equality, which the
pipeline only exercises on primitive choice indices). -/
def jsonBeq : Json → Json → Bool
  | .null, .null => true
  | .bool a, .bool b => a == b
  | .num a, .num b => a == b
  | .str a, .str b => a == b
  | .arr _, .arr _ => false
  | .obj _, .obj _ => false
  | _, _ => false

/-- Whitespace characters stripped by `String.prototype.trim` and matched by `\s`
(restricted to the ASCII whitespace actually occurring in SSE text). -/
def isWSJS (c : Char) : Bool :=
  c = ' ' ∨ c = '\t' ∨ c = '\n' ∨ c = '\r' ∨ c = '\x0b' ∨ c = '\x0c'

/-- Model of `parseInt(s, 10)`: skip leading whitespace, optional sign, then the maximal
run of leading decimal digits; `none` models `NaN` (no digits). -/
def parseIntJS (s : String) : Option Int :=
  let l := (s.data).dropWhile isWSJS
  let (sign, l') : Int × List Char :=
    match l with
    | '-' :: rest => (-1, rest)
    | '+' :: rest => (1, rest)
    | _ => (1, l)
  let digits := l'.takeWhile Char.isDigit
  if digits.isEmpty then none
  else some (sign * (digits.foldl (fun a c => a * 10 + (c.toNat - '0'.toNat)) 0 : Nat))

/-- JSON whitespace accepted by `JSON.parse` between tokens. -/
def isJsonWS (c : Char) : Bool :=
  c = ' ' ∨ c = '\t' ∨ c = '\n' ∨ c = '\r'

/-- Fuel-based scanner for one JSON string literal body (after the opening quote);
returns the decoded characters and the remaining input.  Escapes `\" \\ \/ \b \f \n \r \t`
are decoded; `\u` escapes and raw control characters are treated as parse failures
(a model restriction; the pipeline then passes the event through unchanged). -/
def scanJsonString : Nat → List Char → Option (List Char × List Char)
  | 0, _ => none
  | _, [] => none
  | fuel + 1, c :: rest =>
    if c = '"' then some ([], rest)
    else if c = '\\' then
      match rest with
      | '"' :: r => (scanJsonString fuel r).map (fun (s, r') => ('"' :: s, r'))
      | '\\' :: r => (scanJsonString fuel r).map (fun (s, r') => ('\\' :: s, r'))
      | '/' :: r => (scanJsonString fuel r).map (fun (s, r') => ('/' :: s, r'))
      | 'b' :: r => (scanJsonString fuel r).map (fun (s, r') => ('\x08' :: s, r'))
      | 'f' :: r => (scanJsonString fuel r).map (fun (s, r') => ('\x0c' :: s, r'))
      | 'n' :: r => (scanJsonString fuel r).map (fun (s, r') => ('\n' :: s, r'))
      | 'r' :: r => (scanJsonString fuel r).map (fun (s, r') => ('\r' :: s, r'))
      | 't' :: r => (scanJsonString fuel r).map (fun (s, r') => ('\t' :: s, r'))
      | _ => none
    else if c.toNat < 32 then none
    else (scanJsonString fuel rest).map (fun (s, r') => (c :: s, r'))

/-- Scanner for a JSON integer numeral at the head of the input (sign and digits with the
JSON leading-zero rule).  Fractional or exponent parts make the whole parse fail — the
model restriction described in the header. -/
def scanJsonNumber (l : List Char) : Option (Int × List Char) :=
  let (sign, l') : Int × List Char :=
    match l with
    | '-' :: rest => (-1, rest)
    | _ => (1, l)
  match l' with
  | [] => none
  | c :: _ =>
    if ¬ c.isDigit then none
    else
      let digits := l'.takeWhile Char.isDigit
      let rest := l'.dropWhile Char.isDigit
      if c = '0' ∧ digits.length > 1 then none
      else
        match rest with
        | '.' :: _ => none
        | 'e' :: _ => none
        | 'E' :: _ => none
        | _ => some (sign * (digits.foldl (fun a c => a * 10 + (c.toNat - '0'.toNat)) 0 : Nat), rest)

mutual
/-- Fuel-based recursive-descent parser for one JSON value; model of the value grammar
of `JSON.parse`.  Assumes leading whitespace has been skipped. -/
def parseJsonValue : Nat → List Char → Option (Json × List Char)
  | 0, _ => none
  | _, [] => none
  | fuel + 1, c :: rest =>
    if c = '"' then (scanJsonString (rest.length + 1) rest).map (fun (s, r) => (.str (String.mk s), r))
    else if c = '[' then parseJsonElems fuel (rest.dropWhile isJsonWS) true
    else if c = '\x7b' then parseJsonMembers fuel (rest.dropWhile isJsonWS) true []
    else if c = 't' then
      match rest with
      | 'r' :: 'u' :: 'e' :: r => some (.bool true, r)
      | _ => none
    else if c = 'f' then
      match rest with
      | 'a' :: 'l' :: 's' :: 'e' :: r => some (.bool false, r)
      | _ => none
    else if c = 'n' then
      match rest with
      | 'u' :: 'l' :: 'l' :: r => some (.null, r)
      | _ => none
    else (scanJsonNumber (c :: rest)).map (fun (n, r) => (.num n, r))

/-- Parser for array elements after `[`; `first` is true before the first element. -/
def parseJsonElems (fuel : Nat) (l : List Char) (first : Bool) : Option (Json × List Char) :=
  match fuel with
  | 0 => none
  | fuel + 1 =>
    match l with
    | ']' :: r => if first then some (.arr [], r) else none
    | _ =>
      match parseJsonValue fuel l with
      | none => none
      | some (v, r) =>
        match r.dropWhile isJsonWS with
        | ',' :: r' =>
          match parseJsonElems fuel (r'.dropWhile isJsonWS) false with
          | some (.arr vs, r'') => some (.arr (v :: vs), r'')
          | _ => none
        | ']' :: r' => some (.arr [v], r')
        | _ => none

/-- Parser for object members after an opening brace; duplicate keys follow the JS rule
(`setField`: first position, last value). -/
def parseJsonMembers (fuel : Nat) (l : List Char) (first : Bool)
    (acc : List (String × Json)) : Option (Json × List Char) :=
  match fuel with
  | 0 => none
  | fuel + 1 =>
    match l with
    | '\x7d' :: r => if first then some (.obj acc, r) else none
    | '"' :: r =>
      match scanJsonString (r.length + 1) r with
      | none => none
      | some (k, r1) =>
        match r1.dropWhile isJsonWS with
        | ':' :: r2 =>
          match parseJsonValue fuel (r2.dropWhile isJsonWS) with
          | none => none
          | some (v, r3) =>
            let acc' := setField acc (String.mk k) v
            match r3.dropWhile isJsonWS with
            | ',' :: r4 =>
              match r4.dropWhile isJsonWS with
              | '"' :: _ => parseJsonMembers fuel (r4.dropWhile isJsonWS) false acc'
              | _ => none
            | '\x7d' :: r4 => some (.obj acc', r4)
            | _ => none
        | _ => none
    | _ => none
end

/-- Model of `JSON.parse` on a whole text: a single value surrounded by whitespace. -/
def parseJson (l : List Char) : Option Json :=
  match parseJsonValue (2 * l.length + 2) (l.dropWhile isJsonWS) with
  | some (v, r) => if (r.dropWhile isJsonWS).isEmpty then some v else none
  | none => none

/-- Escape the characters of a string for serialization, mirroring `JSON.stringify`
on the characters the pipeline exercises. -/
def escapeChars : List Char → List Char
  | [] => []
  | c :: rest =>
    if c = '"' then '\\' :: '"' :: escapeChars rest
    else if c = '\\' then '\\' :: '\\' :: escapeChars rest
    else if c = '\n' then '\\' :: 'n' :: escapeChars rest
    else if c = '\r' then '\\' :: 'r' :: escapeChars rest
    else if c = '\t' then '\\' :: 't' :: escapeChars rest
    else if c = '\x08' then '\\' :: 'b' :: escapeChars rest
    else if c = '\x0c' then '\\' :: 'f' :: escapeChars rest
    else c :: escapeChars rest

mutual
/-- Model of `JSON.stringify` (no spacing argument, as in the source). -/
def stringifyJson : Json → List Char
  | .null => "null".data
  | .bool true => "true".data
  | .bool false => "false".data
  | .num n => (toString n).data
  | .str s => '"' :: escapeChars s.data ++ ['"']
  | .arr es => '[' :: stringifyList es ++ [']']
  | .obj fs => '\x7b' :: stringifyFields fs ++ ['\x7d']

/-- Serialization of array elements, comma-separated. -/
def stringifyList : List Json → List Char
  | [] => []
  | [x] => stringifyJson x
  | x :: y :: rest => stringifyJson x ++ ',' :: stringifyList (y :: rest)

/-- Serialization of object members, comma-separated. -/
def stringifyFields : List (String × Json) → List Char
  | [] => []
  | [(k, v)] => '"' :: escapeChars k.data ++ '"' :: ':' :: stringifyJson v
  | (k, v) :: p :: rest =>
    '"' :: escapeChars k.data ++ '"' :: ':' :: stringifyJson v ++ ',' :: stringifyFields (p :: rest)
end

/-- Shorthand turning a string literal into the character-list model of SSE text. -/
def strL (s : String) : List Char := s.data

-- ===========================================================================
-- JSON Schema transformation (`transformJsonSchema`, source lines 892–962)
-- ===========================================================================

/-- Configuration consumed by the schema transformer: the `keywordsToRemove` set and the
`keywordTransforms` mapping of `SCHEMA_TRANSFORM_CONFIG`, after merging caller extensions
(`createToolCallIndexPatchedFetch`, source lines 1427–1435). -/
structure SchemaCfg where
  keywordsToRemove : List String
  keywordTransforms : List (String × (Json → List (String × Json)))

/-- Model of `Object.assign(result, transformed)`: each own key of the transform output is
assigned onto the accumulated result in order. -/
def assignAll (acc : List (String × Json)) : List (String × Json) → List (String × Json)
  | [] => acc
  | (k, v) :: rest => assignAll (setField acc k v) rest

/-- Property names of `Object.prototype` (standard plus Annex B): `keywordTransforms` is
a plain object literal, so the source’s `key in options.keywordTransforms` check (source
line 934) answers true for every one of these inherited names as well as for the own
keys. -/
def protoPropNames : List String :=
  ["constructor", "hasOwnProperty", "isPrototypeOf", "propertyIsEnumerable",
   "toLocaleString", "toString", "valueOf", "__proto__",
   "__defineGetter__", "__defineSetter__", "__lookupGetter__", "__lookupSetter__"]

/-- Own enumerable properties of an array value: its elements under their decimal index
keys (what `Object.assign` copies from an array source). -/
def indexFields (i : Nat) : List Json → List (String × Json)
  | [] => []
  | x :: xs => (toString i, x) :: indexFields (i + 1) xs

/-- Own enumerable properties of a (wrapped) string value: its one-character strings
under their decimal index keys (what `Object.assign` copies from a string source). -/
def strIndexFields (i : Nat) : List Char → List (String × Json)
  | [] => []
  | c :: cs => (toString i, Json.str (String.mk [c])) :: strIndexFields (i + 1) cs

/-- Behaviour of `transform(value)` followed by `Object.assign(result, transformed)`
when `key` is inherited from `Object.prototype` (the source performs no function check;
modules run in strict mode, so the call receives `this = undefined`): the own enumerable
properties that get assigned, or `none` when the call throws a `TypeError`.
`constructor` is `Object`: on an object/array/string value `Object(v)` returns the value
(or its wrapper) whose own enumerable properties are merged verbatim, and on
null/number/boolean it yields a propertyless result.  `toString` returns the string
`"[object Undefined]"`, whose characters are merged under index keys.  `isPrototypeOf`
returns `false` for a primitive argument (nothing assigned) and throws on an
object/array argument (`ToObject(undefined)`).  Every other inherited member throws:
`valueOf`, `hasOwnProperty`, `propertyIsEnumerable`, `toLocaleString` and the four
`__define`/`__lookup` accessor helpers hit `ToObject(undefined)`, and `__proto__` reads
as `Object.prototype`, which is not callable. -/
def inheritedTransform : String → Json → Option (List (String × Json))
  | "constructor", v =>
    match v with
    | .obj fs => some fs
    | .arr xs => some (indexFields 0 xs)
    | .str s => some (strIndexFields 0 s.data)
    | _ => some []
  | "toString", _ => some (strIndexFields 0 (strL "[object Undefined]"))
  | "isPrototypeOf", v =>
    match v with
    | .obj _ => none
    | .arr _ => none
    | _ => some []
  | _, _ => none

mutual
/-- Model of `transformJsonSchema(obj, options)` (source lines 892–962): primitives are
returned unchanged, arrays map the transform over their elements, and objects are rebuilt
key by key.  A thrown `TypeError` is modelled as `none` and propagates to the caller
(`transformRequestBody` catches it). -/
def transformJsonSchema (cfg : SchemaCfg) : Json → Option Json
  | .null => some .null
  | .bool b => some (.bool b)
  | .num n => some (.num n)
  | .str s => some (.str s)
  | .arr xs =>
    match transformJsonList cfg xs with
    | some ys => some (.arr ys)
    | none => none
  | .obj fs =>
    match transformJsonFields cfg fs [] with
    | some gs => some (.obj gs)
    | none => none

/-- Element-wise recursion of `transformJsonSchema` over an array (`obj.map(...)`); a
throw inside any element propagates. -/
def transformJsonList (cfg : SchemaCfg) : List Json → Option (List Json)
  | [] => some []
  | x :: xs =>
    match transformJsonSchema cfg x with
    | none => none
    | some y =>
      match transformJsonList cfg xs with
      | none => none
      | some ys => some (y :: ys)

/-- The `for (const [key, value] of Object.entries(objRecord))` loop of
`transformJsonSchema`, building up `result` (here the accumulator `acc`).  Removed
keywords are skipped (`keywordsToRemove.has`, own membership of the `Set`).  The
transform test is the source’s `key in options.keywordTransforms`, which sees own keys
AND the inherited `Object.prototype` members: an own transform’s output object is
`Object.assign`-ed onto the result with the original (untransformed) value; an inherited
member behaves per `inheritedTransform`, merging raw properties or throwing.  Otherwise
nested objects/arrays recurse and all other values are copied verbatim. -/
def transformJsonFields (cfg : SchemaCfg) :
    List (String × Json) → List (String × Json) → Option (List (String × Json))
  | [], acc => some acc
  | (k, v) :: rest, acc =>
    if k ∈ cfg.keywordsToRemove then transformJsonFields cfg rest acc
    else
      match cfg.keywordTransforms.lookup k with
      | some f => transformJsonFields cfg rest (assignAll acc (f v))
      | none =>
        if k ∈ protoPropNames then
          match inheritedTransform k v with
          | none => none
          | some merged => transformJsonFields cfg rest (assignAll acc merged)
        else
          match v with
          | .arr _ =>
            match transformJsonSchema cfg v with
            | none => none
            | some w => transformJsonFields cfg rest (setField acc k w)
          | .obj _ =>
            match transformJsonSchema cfg v with
            | none => none
            | some w => transformJsonFields cfg rest (setField acc k w)
          | _ => transformJsonFields cfg rest (setField acc k v)
end

/-- The built-in `SCHEMA_TRANSFORM_CONFIG` (source lines 41–86): the default keyword
removal set and the `const → enum` transform. -/
def defaultSchemaCfg : SchemaCfg where
  keywordsToRemove :=
    ["propertyNames", "patternProperties", "dependencies", "if", "then", "else",
     "not", "$ref", "$id", "$schema", "$comment"]
  keywordTransforms := [("const", fun v => [("enum", Json.arr [v])])]

mutual
/-- Guard used by the amended C3/C4: no object key anywhere in the value is an
`Object.prototype` property name, so the transform loop never takes the inherited-member
branch of `key in options.keywordTransforms`. -/
def protoFree : Json → Bool
  | .obj fs => protoFreeFields fs
  | .arr xs => protoFreeList xs
  | _ => true

/-- Array part of `protoFree`. -/
def protoFreeList : List Json → Bool
  | [] => true
  | x :: xs => protoFree x && protoFreeList xs

/-- Field part of `protoFree`. -/
def protoFreeFields : List (String × Json) → Bool
  | [] => true
  | (k, v) :: rest =>
    if k ∈ protoPropNames then false else protoFree v && protoFreeFields rest
end

/-- Model of `transformRequestBody(body, options)` (source lines 968–1003): parse the
body; without a non-empty `tools` array return the body unchanged; otherwise replace
`tools` by its transform and re-serialize.  Parse failure — and a `TypeError` escaping
the transform — returns the body unchanged (the `try`/`catch`). -/
def transformRequestBody (body : List Char) (cfg : SchemaCfg) : List Char :=
  match parseJson body with
  | none => body
  | some j =>
    match safeGetJ j ["tools"] with
    | some (.arr ts) =>
      if ts.isEmpty then body
      else
        match j with
        | .obj fs =>
          match transformJsonSchema cfg (.arr ts) with
          | some ts2 => stringifyJson (.obj (setField fs "tools" ts2))
          | none => body
        | _ => body  -- unreachable: a non-object never yields a `tools` property
    | _ => body

-- ===========================================================================
-- Tool-call index tracking (`getToolCallKey` / `ensureToolCallIndex`,
-- source lines 1037–1111)
-- ===========================================================================

/-- Per-choice index state (source lines 179–184): the next unused index and the map of
stable keys to previously assigned indices.  Indices are modelled as exact integers. -/
structure ChoiceIndexState where
  nextIndex : Int
  assigned : List (String × Int)

/-- The fresh state installed by `getChoiceState` for an unseen choice. -/
def initialChoiceState : ChoiceIndexState := { nextIndex := 0, assigned := [] }

/-- Lookup in the `assigned` map (`Map.get`). -/
def getAssigned : List (String × Int) → String → Option Int
  | [], _ => none
  | (k', i) :: rest, k => if k' = k then some i else getAssigned rest k

/-- Update of the `assigned` map (`Map.set`): existing key updated in place, fresh key
appended. -/
def setAssigned : List (String × Int) → String → Int → List (String × Int)
  | [], k, i => [(k, i)]
  | (k', i') :: rest, k, i =>
    if k' = k then (k', i) :: rest else (k', i') :: setAssigned rest k i

/-- Model of `getToolCallKey(call)` (source lines 1050–1066): prefer a non-empty string
`id`; fall back to a non-empty `function.name` prefixed with `fn:`; otherwise no stable
key.  Non-object calls and non-string fields yield no key. -/
def getToolCallKey (call : Json) : Option String :=
  match call with
  | .obj fs =>
    match getField fs "id" with
    | some (.str s) =>
      if s ≠ "" then some s
      else
        match safeGetJ (.obj fs) ["function", "name"] with
        | some (.str n) => if n ≠ "" then some ("fn:" ++ n) else none
        | _ => none
    | _ =>
      match safeGetJ (.obj fs) ["function", "name"] with
      | some (.str n) => if n ≠ "" then some ("fn:" ++ n) else none
      | _ => none
  | _ => none

/-- Model of `ensureToolCallIndex(state, call)` (source lines 1074–1111) on an object
call with field list `fs`.  Returns the updated choice state, the updated field list and
the `mutated` flag.  A string index is parsed (`parseInt`), on success becoming the
numeric index with `mutated = true`, on failure being discarded (`call.index =
undefined`, modelled by field removal).  A numeric index advances `nextIndex` to at least
`index + 1` and records the key.  Otherwise a key seen before reuses its index, and any
remaining call receives `nextIndex++`. -/
def ensureToolCallIndex (st : ChoiceIndexState) (fs : List (String × Json)) :
    ChoiceIndexState × List (String × Json) × Bool :=
  let key := getToolCallKey (.obj fs)
  -- step 1: convert a string index to a number if possible
  let step1 : List (String × Json) × Bool :=
    match getField fs "index" with
    | some (.str s) =>
      match parseIntJS s with
      | some n => (setField fs "index" (.num n), true)
      | none => (delField fs "index", false)
    | _ => (fs, false)
  let fs1 := step1.1
  let mutated := step1.2
  -- step 2: a valid numeric index updates the state and returns
  match getField fs1 "index" with
  | some (.num n) =>
    ({ nextIndex := max st.nextIndex (n + 1),
       assigned := match key with
         | some k => setAssigned st.assigned k n
         | none => st.assigned },
     fs1, mutated)
  | _ =>
    -- step 3: reuse a previously assigned index for the same key
    match key with
    | some k =>
      match getAssigned st.assigned k with
      | some i => (st, setField fs1 "index" (.num i), true)
      | none =>
        -- step 4: assign a fresh index
        ({ nextIndex := st.nextIndex + 1,
           assigned := setAssigned st.assigned k st.nextIndex },
         setField fs1 "index" (.num st.nextIndex), true)
    | none =>
      ({ st with nextIndex := st.nextIndex + 1 },
       setField fs1 "index" (.num st.nextIndex), true)

/-- Sequential run of `ensureToolCallIndex` over the tool-call fragments of one choice of
one stream, in arrival order; the per-fragment processing done by `patchToolCallIndices`
restricted to object fragments. -/
def processCalls (st : ChoiceIndexState) : List (List (String × Json)) →
    ChoiceIndexState × List (List (String × Json))
  | [] => (st, [])
  | fs :: rest =>
    let (st', fs', _) := ensureToolCallIndex st fs
    let (st'', rest') := processCalls st' rest
    (st'', fs' :: rest')

-- ===========================================================================
-- Gemini thought-signature bridge (`extractThoughtSignature` /
-- `injectThoughtSignature`, source lines 628–814)
-- ===========================================================================

/-- Per-choice body of `extractThoughtSignature` (source lines 631–666): a plain-object
delta is probed first at `delta.thought_signature`, then at
`delta.tool_calls[0].extra_content.google.thought_signature`; only non-empty strings
count. -/
def extractFromChoice (c : Json) : Option String :=
  match safeGetJ c ["delta"] with
  | some (.obj dfs) =>
    match getField dfs "thought_signature" with
    | some (.str s) =>
      if s ≠ "" then some s
      else
        match getField dfs "tool_calls" with
        | some tc =>
          if isValidArr tc then
            match tc with
            | .arr (fc :: _) =>
              match safeGetJ fc ["extra_content", "google", "thought_signature"] with
              | some (.str s') => if s' ≠ "" then some s' else none
              | _ => none
            | _ => none
          else none
        | _ => none
    | _ =>
      match getField dfs "tool_calls" with
      | some tc =>
        if isValidArr tc then
          match tc with
          | .arr (fc :: _) =>
            match safeGetJ fc ["extra_content", "google", "thought_signature"] with
            | some (.str s') => if s' ≠ "" then some s' else none
            | _ => none
          | _ => none
        else none
      | _ => none
  | _ => none

/-- Model of `extractThoughtSignature(choices)` (source lines 628–671): the first choice
yielding a signature wins; absence is normal. -/
def extractThoughtSignature : List Json → Option String
  | [] => none
  | c :: rest =>
    match extractFromChoice c with
    | some s => some s
    | none => extractThoughtSignature rest

/-- Model of the backwards search of `injectThoughtSignature` (source lines 745–760):
is this message a plain object with `role === "assistant"` and a non-empty `tool_calls`
array? -/
def isTargetMsg (m : Json) : Bool :=
  (match safeGetJ m ["role"] with
   | some (.str r) => r = "assistant"
   | _ => false) &&
  (match safeGetJ m ["tool_calls"] with
   | some tc => isValidArr tc
   | none => false)

/-- Index of the last message satisfying `isTargetMsg` (the `for (let i = length-1; ...)`
loop searching backwards). -/
def findLastTarget : List Json → Option Nat
  | [] => none
  | m :: rest =>
    match findLastTarget rest with
    | some i => some (i + 1)
    | none => if isTargetMsg m then some 0 else none

/-- Tree-level core of `injectThoughtSignature` (source lines 727–814).  `none` models
every path on which the function returns the original `body` string: missing/empty
`messages`, no target message, a non-object first tool call, or the strict-mode
`TypeError` thrown when a truthy non-object container is assigned a property (caught by
the surrounding `try`).  `some t` models `return JSON.stringify(json)` where `t` is the
observable mutated tree; a property assigned onto an *array* container is skipped by
`JSON.stringify`, so those paths return the tree unchanged. -/
def injectCore (j : Json) (sig : String) : Option Json :=
  match j with
  | .obj jfs =>
    match getField jfs "messages" with
    | some (.arr msgs) =>
      if msgs.isEmpty then none
      else
        match findLastTarget msgs with
        | none => none
        | some i =>
          match msgs.getD i .null with
          | .obj mfs =>
            match getField mfs "tool_calls" with
            | some (.arr (fc :: tcRest)) =>
              match fc with
              | .obj fcfs =>
                let put (fcfs' : List (String × Json)) : Option Json :=
                  let m' := Json.obj (setField mfs "tool_calls" (.arr (.obj fcfs' :: tcRest)))
                  some (.obj (setField jfs "messages" (.arr (msgs.set i m'))))
                let fresh : List (String × Json) :=
                  [("thought_signature", .str sig)]
                match getField fcfs "extra_content" with
                | some ec =>
                  if truthy ec then
                    match ec with
                    | .obj ecfs =>
                      match getField ecfs "google" with
                      | some g =>
                        if truthy g then
                          match g with
                          | .obj gfs =>
                            put (setField fcfs "extra_content"
                              (.obj (setField ecfs "google"
                                (.obj (setField gfs "thought_signature" (.str sig))))))
                          | .arr _ => some j  -- assignment skipped by JSON.stringify
                          | _ => none  -- TypeError on a truthy primitive, caught
                        else
                          put (setField fcfs "extra_content"
                            (.obj (setField ecfs "google" (.obj fresh))))
                      | none =>
                        put (setField fcfs "extra_content"
                          (.obj (setField ecfs "google" (.obj fresh))))
                    | .arr _ => some j  -- assignment skipped by JSON.stringify
                    | _ => none  -- TypeError on a truthy primitive, caught
                  else
                    put (setField fcfs "extra_content" (.obj [("google", .obj fresh)]))
                | none =>
                  put (setField fcfs "extra_content" (.obj [("google", .obj fresh)]))
              | _ => none  -- first tool_call is not a plain object
            | _ => none  -- unreachable: the target has a non-empty tool_calls array
          | _ => none  -- unreachable: the target is a plain object
    | _ => none
  | _ => none

/-- Model of `injectThoughtSignature(body, thoughtSignature)` (source lines 727–814) at
the string level. -/
def injectThoughtSignature (body : List Char) (sig : String) : List Char :=
  match parseJson body with
  | none => body
  | some j =>
    match injectCore j sig with
    | none => body
    | some j' => stringifyJson j'

-- ===========================================================================
-- SSE stream patching (`patchChunkPayload` / `shouldFilterEmptyChunk` /
-- `patchToolCallIndices` / `transformEvent` / `patchSseStream`,
-- source lines 1118–1395)
-- ===========================================================================

/-- The `config: { handleThoughtSignature: boolean }` parameter threaded through the
stream functions. -/
structure PatchCfg where
  handleThoughtSignature : Bool

/-- The `STREAM_PATCH_CONFIG` constant (source lines 118–139), taken as a parameter so
that both settings of each flag can be reasoned about. -/
structure StreamPatchConfig where
  filterEmptyChunksAfterToolCalls : Bool
  assignMissingIndices : Bool

/-- The literal values of `STREAM_PATCH_CONFIG` in this snapshot of the source. -/
def streamPatchConfig : StreamPatchConfig where
  filterEmptyChunksAfterToolCalls := false
  assignMissingIndices := true

/-- Per-stream state (source lines 254–269). -/
structure StreamState where
  toolCallState : List (Json × ChoiceIndexState)
  sawToolCallsFinish : Bool
  chunkCount : Nat
  thoughtSignature : Option String

/-- The fresh per-stream state built at the top of `patchSseStream`. -/
def initStreamState : StreamState where
  toolCallState := []
  sawToolCallsFinish := false
  chunkCount := 0
  thoughtSignature := none

/-- Lookup of a choice's index state (`state.get(choiceIndex)`); `Map` keys compare with
SameValueZero, which on per-event parsed JSON values is `jsonBeq`. -/
def lookupChoice : List (Json × ChoiceIndexState) → Json → Option ChoiceIndexState
  | [], _ => none
  | (k, s) :: rest, key => if jsonBeq k key then some s else lookupChoice rest key

/-- Write-back of a choice's index state (`state.set(choiceIndex, ...)`). -/
def setChoice : List (Json × ChoiceIndexState) → Json → ChoiceIndexState →
    List (Json × ChoiceIndexState)
  | [], key, s => [(key, s)]
  | (k, s') :: rest, key, s =>
    if jsonBeq k key then (k, s) :: rest else (k, s') :: setChoice rest key s

/-- Model of `getChoiceState` (source lines 1037–1044): existing state or a fresh one. -/
def getChoiceState (m : List (Json × ChoiceIndexState)) (key : Json) : ChoiceIndexState :=
  match lookupChoice m key with
  | some s => s
  | none => initialChoiceState

/-- The inner `for (const call of toolCalls)` loop of `patchToolCallIndices`
(source lines 1272–1277): non-object calls are skipped, object calls run through
`ensureToolCallIndex`, or-accumulating the mutation flag. -/
def patchCallsList (cs : ChoiceIndexState) : List Json → ChoiceIndexState × List Json × Bool
  | [] => (cs, [], false)
  | call :: rest =>
    match call with
    | .obj callFs =>
      let (cs1, callFs', m1) := ensureToolCallIndex cs callFs
      let (cs2, rest', m2) := patchCallsList cs1 rest
      (cs2, .obj callFs' :: rest', m1 || m2)
    | _ =>
      let (cs2, rest', m2) := patchCallsList cs rest
      (cs2, call :: rest', m2)

/-- One iteration of the choice loop of `patchToolCallIndices` (source lines 1248–1278):
latch `finish_reason == "tool_calls"`, then patch the delta's tool calls against the
choice's index state (the choice key is `choice.index ?? 0`). -/
def patchOneChoice (st : StreamState) (c : Json) : StreamState × Json × Bool :=
  match c with
  | .obj cfs =>
    let st1 :=
      match safeGetJ c ["finish_reason"] with
      | some (.str r) =>
        if r = "tool_calls" then { st with sawToolCallsFinish := true } else st
      | _ => st
    match getField cfs "delta" with
    | some (.obj dfs) =>
      match getField dfs "tool_calls" with
      | some (.arr (call0 :: calls)) =>
        let choiceKey : Json :=
          match getField cfs "index" with
          | none => .num 0
          | some .null => .num 0
          | some v => v
        let cs := getChoiceState st1.toolCallState choiceKey
        let (cs', calls', mutated) := patchCallsList cs (call0 :: calls)
        ({ st1 with toolCallState := setChoice st1.toolCallState choiceKey cs' },
         .obj (setField cfs "delta" (.obj (setField dfs "tool_calls" (.arr calls')))),
         mutated)
      | _ => (st1, c, false)
    | _ => (st1, c, false)
  | _ => (st, c, false)

/-- Model of `patchToolCallIndices(choices, state)` (source lines 1245–1281). -/
def patchToolCallIndices : List Json → StreamState → StreamState × List Json × Bool
  | [], st => (st, [], false)
  | c :: rest, st =>
    let (st1, c', m1) := patchOneChoice st c
    let (st2, rest', m2) := patchToolCallIndices rest st1
    (st2, c' :: rest', m1 || m2)

/-- Model of `shouldFilterEmptyChunk(choices)` (source lines 1194–1237); the accumulator
is `hasValidChoice`, and hitting content or tool calls breaks with a `false` overall
answer. -/
def shouldFilterEmptyChunkGo : List Json → Bool → Bool
  | [], hasValid => hasValid
  | c :: rest, hasValid =>
    match safeGetJ c ["delta"] with
    | some (.obj dfs) =>
      let toolCallsFull :=
        match getField dfs "tool_calls" with
        | some (.arr (_ :: _)) => true
        | _ => false
      let contentFull :=
        match getField dfs "content" with
        | some (.str s) => s != ""
        | _ => false
      if toolCallsFull then false
      else if contentFull then false
      else shouldFilterEmptyChunkGo rest true
    | _ => shouldFilterEmptyChunkGo rest hasValid

/-- Entry point of `shouldFilterEmptyChunk`. -/
def shouldFilterEmptyChunk (choices : List Json) : Bool :=
  shouldFilterEmptyChunkGo choices false

/-- The signature-extraction step of `patchChunkPayload` (source lines 1146–1152): when
enabled, a found signature overwrites the per-stream captured slot. -/
def extractState (cfgH : Bool) (choices : List Json) (st : StreamState) : StreamState :=
  if cfgH then
    match extractThoughtSignature choices with
    | some s => { st with thoughtSignature := some s }
    | none => st
  else st

/-- Model of `patchChunkPayload(payload, state, config)` (source lines 1121–1181).
Returns the updated stream state, `patched` (`none` models `null`), and `shouldFilter`.
Payloads that fail to parse, lack a `choices` array, or have an empty one are left
untouched. -/
def patchChunkPayload (payload : List Char) (cfg : PatchCfg) (spc : StreamPatchConfig)
    (st : StreamState) : StreamState × Option (List Char) × Bool :=
  match parseJson payload with
  | none => (st, none, false)
  | some j =>
    match safeGetJ j ["choices"] with
    | some (.arr choices) =>
      if choices.isEmpty then (st, none, false)
      else
        let st1 := extractState cfg.handleThoughtSignature choices st
        let runPatch (st1 : StreamState) : StreamState × Option (List Char) × Bool :=
          if spc.assignMissingIndices then
            let (st2, choices', mutated) := patchToolCallIndices choices st1
            if mutated then
              match j with
              | .obj jfs =>
                (st2, some (stringifyJson (.obj (setField jfs "choices" (.arr choices')))), false)
              | _ => (st2, none, false)  -- unreachable: `choices` was found on an object
            else (st2, none, false)
          else (st1, none, false)
        if spc.filterEmptyChunksAfterToolCalls && st1.sawToolCallsFinish then
          if shouldFilterEmptyChunk choices then (st1, none, true)
          else runPatch st1
        else runPatch st1
    | _ => (st, none, false)

/-- Split on `'\n'`, keeping empty segments, as `String.prototype.split("\n")` does. -/
def splitNL : List Char → List (List Char)
  | [] => [[]]
  | c :: rest =>
    if c = '\n' then [] :: splitNL rest
    else
      match splitNL rest with
      | l :: ls => (c :: l) :: ls
      | [] => [[c]]

/-- Join with `'\n'`, the `Array.prototype.join("\n")` of the source. -/
def joinNL : List (List Char) → List Char
  | [] => []
  | [l] => l
  | l :: ls => l ++ '\n' :: joinNL ls

/-- Removal of at most one leading whitespace character: `replace(/^\s/, "")`. -/
def stripOneWS : List Char → List Char
  | [] => []
  | c :: rest => if isWSJS c then rest else c :: rest

/-- Extraction of the `data:` payload of an SSE event (source lines 1298–1304): the
`data:`-prefixed lines, each with the prefix and at most one following whitespace
character removed, joined with newlines; `none` when the event has no `data:` line. -/
def eventPayload (ev : List Char) : Option (List Char) :=
  let dataLines := (splitNL ev).filter (fun l => (strL "data:").isPrefixOf l)
  if dataLines.isEmpty then none
  else some (joinNL (dataLines.map (fun l => stripOneWS (l.drop 5))))

/-- Model of `transformEvent(event, state, config)` (source lines 1287–1327): blank
events and events without `data:` lines pass through, `[DONE]` and empty payloads pass
through, otherwise the payload runs through `patchChunkPayload`; a filtered event
becomes `none`, an unpatched one is re-emitted verbatim, and a patched one is rebuilt
from its non-data lines plus `data: `-prefixed patched payload lines. -/
def transformEvent (cfg : PatchCfg) (spc : StreamPatchConfig) (st : StreamState)
    (ev : List Char) : StreamState × Option (List Char) :=
  if ev.all isWSJS then (st, some ev)
  else
    let st1 := { st with chunkCount := st.chunkCount + 1 }
    match eventPayload ev with
    | none => (st1, some ev)
    | some payload =>
      if payload.isEmpty ∨ payload = strL "[DONE]" then (st1, some ev)
      else
        let (st2, patched, shouldFilter) := patchChunkPayload payload cfg spc st1
        if shouldFilter then (st2, none)
        else
          match patched with
          | none => (st2, some ev)
          | some p =>
            let otherLines := (splitNL ev).filter (fun l => ¬ (strL "data:").isPrefixOf l)
            let patchedLines := (splitNL p).map (fun l => strL "data: " ++ l)
            (st2, some (joinNL (otherLines ++ patchedLines)))

/-- Normalization `replace(/\r\n/g, "\n")` applied to each decoded chunk
(source line 1372); left-to-right, non-overlapping, within one chunk only. -/
def replaceCRLF : List Char → List Char
  | [] => []
  | [c] => [c]
  | c1 :: c2 :: rest =>
    if c1 = '\r' ∧ c2 = '\n' then '\n' :: replaceCRLF rest
    else c1 :: replaceCRLF (c2 :: rest)

/-- First occurrence of the `"\n\n"` event delimiter: the text before it and the text
after it (`buffer.indexOf("\n\n")` with the two slices). -/
def findNN : List Char → Option (List Char × List Char)
  | [] => none
  | [_] => none
  | c1 :: c2 :: rest =>
    if c1 = '\n' ∧ c2 = '\n' then some ([], rest)
    else (findNN (c2 :: rest)).map (fun (b, a) => (c1 :: b, a))

/-- Fuel-indexed repeated splitting at `"\n\n"` (the `while` loop of source lines
1375–1383): the list of complete events and the remaining buffer. -/
def splitEventsF : Nat → List Char → List (List Char) × List Char
  | 0, l => ([], l)
  | fuel + 1, l =>
    match findNN l with
    | none => ([], l)
    | some (ev, rest) =>
      let (evs, r) := splitEventsF fuel rest
      (ev :: evs, r)

/-- Splitting a buffer into complete events plus remainder (fuel is always sufficient:
each extracted event consumes at least the two delimiter characters). -/
def splitEvents (l : List Char) : List (List Char) × List Char :=
  splitEventsF l.length l

/-- Sequential processing of split-off events: each event runs through `transformEvent`
on the threaded stream state; surviving events are emitted re-terminated with exactly
one `"\n\n"` (source lines 1379–1382). -/
def processEvents (cfg : PatchCfg) (spc : StreamPatchConfig) :
    StreamState → List (List Char) → StreamState × List (List Char)
  | st, [] => (st, [])
  | st, ev :: rest =>
    let (st1, out) := transformEvent cfg spc st ev
    let (st2, outs) := processEvents cfg spc st1 rest
    (st2, (match out with | some o => [o ++ strL "\n\n"] | none => []) ++ outs)

/-- State of the pull loop of `patchSseStream`: the rolling text buffer plus the
per-stream state. -/
structure PullState where
  buffer : List Char
  ss : StreamState

/-- The cross-request handoff performed when the upstream reports `done` (source lines
1354–1358): if enabled and a truthy signature was captured, it overwrites the shared
`ThoughtSignatureState`. -/
def handoffSignature (cfg : PatchCfg) (captured : Option String) (shared : Option String) :
    Option String :=
  if cfg.handleThoughtSignature then
    match captured with
    | some s => if s = "" then shared else some s
    | none => shared
  else shared

/-- Model of the pull loop of `patchSseStream` (source lines 1349–1388) driven by the
list of decoded upstream chunks.  Each pull appends the CRLF-normalized chunk to the
buffer and emits every complete event; on `done` the captured signature is stored into
the shared state FIRST, and only then is a non-blank trailing buffer flushed through
`transformEvent`.  Returns the emitted output chunks and the final shared signature
state. -/
def runPull (cfg : PatchCfg) (spc : StreamPatchConfig) :
    List (List Char) → PullState → Option String → List (List Char) × Option String
  | [], ps, shared =>
    let shared' := handoffSignature cfg ps.ss.thoughtSignature shared
    if ¬ ps.buffer.all isWSJS then
      match (transformEvent cfg spc ps.ss ps.buffer).2 with
      | some o => ([o ++ strL "\n\n"], shared')
      | none => ([], shared')
    else ([], shared')
  | c :: rest, ps, shared =>
    let buf := ps.buffer ++ replaceCRLF c
    let (evs, buf') := splitEvents buf
    let (st', outs) := processEvents cfg spc ps.ss evs
    let (outs', shared') := runPull cfg spc rest ⟨buf', st'⟩ shared
    (outs ++ outs', shared')

-- ===========================================================================
-- Spec-side reference definitions and observers
-- ===========================================================================

/-- Lookup in the reference key→index record. -/
def getAssignedNat : List (String × Nat) → String → Option Nat
  | [], _ => none
  | (k', i) :: rest, k => if k' = k then some i else getAssignedNat rest k

/-- Reference assignment discipline, following the spec's words: indices are handed out
densely (0, 1, 2, …) in first-seen order; a fragment whose key was seen before reuses the
recorded index; keyless fragments are always new.  `n` is the next free index and `m`
the key→index record. -/
def specAssignIndices (n : Nat) (m : List (String × Nat)) : List (Option String) → List Nat
  | [] => []
  | none :: ks => n :: specAssignIndices (n + 1) m ks
  | some k :: ks =>
    match getAssignedNat m k with
    | some i => i :: specAssignIndices n m ks
    | none => n :: specAssignIndices (n + 1) (m ++ [(k, n)]) ks

/-- Decidable guard for the amended C2: the first tool call of the target message is a
plain object, and its `extra_content` and `extra_content.google` containers, when present
and truthy, are plain objects. -/
def c2Containers (fc : Json) : Bool :=
  match fc with
  | .obj fcfs =>
    match getField fcfs "extra_content" with
    | some ec =>
      if truthy ec then
        match ec with
        | .obj ecfs =>
          (match getField ecfs "google" with
           | some g => if truthy g then isObj g else true
           | none => true)
        | _ => false
      else true
    | none => true
  | _ => false

/-- Reference injection, following the spec's words: write the signature at exactly
`messages[i].tool_calls[0].extra_content.google.thought_signature`, re-using object
containers already present and creating them otherwise, and leaving every other part of
the tree — in particular all other tool calls of that message — untouched. -/
def specInject (j : Json) (i : Nat) (sig : String) : Json :=
  match j with
  | .obj jfs =>
    match getField jfs "messages" with
    | some (.arr msgs) =>
      match msgs.getD i .null with
      | .obj mfs =>
        match getField mfs "tool_calls" with
        | some (.arr (fc :: tcRest)) =>
          match fc with
          | .obj fcfs =>
            let ecfs :=
              match getField fcfs "extra_content" with
              | some (.obj e) => e
              | _ => []
            let gfs :=
              match getField ecfs "google" with
              | some (.obj g) => g
              | _ => []
            .obj (setField jfs "messages" (.arr (msgs.set i
              (.obj (setField mfs "tool_calls" (.arr
                (.obj (setField fcfs "extra_content" (.obj (setField ecfs "google" (.obj
                  (setField gfs "thought_signature" (.str sig)))))) :: tcRest)))))))
          | _ => j
        | _ => j
      | _ => j
    | _ => j
  | _ => j

mutual
/-- Observer: does `needle` occur as an object key anywhere in the value? -/
def hasKeyDeep (needle : String) : Json → Bool
  | .obj fs => hasKeyDeepFields needle fs
  | .arr xs => hasKeyDeepList needle xs
  | _ => false

/-- Array part of `hasKeyDeep`. -/
def hasKeyDeepList (needle : String) : List Json → Bool
  | [] => false
  | x :: xs => hasKeyDeep needle x || hasKeyDeepList needle xs

/-- Field part of `hasKeyDeep`. -/
def hasKeyDeepFields (needle : String) : List (String × Json) → Bool
  | [] => false
  | (k, v) :: rest =>
    (k == needle) || hasKeyDeep needle v || hasKeyDeepFields needle rest
end

mutual
/-- Hypothesis of the amended C4: every value attached to a `const` key in the schema is
itself free of `const` keys (such values are merged into the output verbatim). -/
def constValuesClean : Json → Bool
  | .obj fs => constValuesCleanFields fs
  | .arr xs => constValuesCleanList xs
  | _ => true

/-- Array part of `constValuesClean`. -/
def constValuesCleanList : List Json → Bool
  | [] => true
  | x :: xs => constValuesClean x && constValuesCleanList xs

/-- Field part of `constValuesClean`. -/
def constValuesCleanFields : List (String × Json) → Bool
  | [] => true
  | (k, v) :: rest =>
    (if k = "const" then !hasKeyDeep "const" v else constValuesClean v) &&
    constValuesCleanFields rest
end

/-- Observer: does the parsed request body carry a non-empty `tools` array?  Mirrors the
guard of `transformRequestBody`. -/
def hasNonEmptyTools (j : Json) : Bool :=
  match safeGetJ j ["tools"] with
  | some (.arr ts) => !ts.isEmpty
  | _ => false

/-- Reference pipeline for the amended C10: concatenate the per-chunk CRLF-normalized
texts, split the whole text at `"\n\n"` once, push each event through `transformEvent`
in order (emitting survivors with exactly one appended `"\n\n"`), and finish with the
source's completion step — signature handoff first, then the flush of a non-blank
trailing remainder. -/
def specPipeline (cfg : PatchCfg) (spc : StreamPatchConfig) (chunks : List (List Char))
    (st0 : StreamState) (shared : Option String) : List (List Char) × Option String :=
  let full := (chunks.map replaceCRLF).flatten
  let (evs, rest) := splitEvents full
  let (st', outs) := processEvents cfg spc st0 evs
  let shared' := handoffSignature cfg st'.thoughtSignature shared
  if ¬ rest.all isWSJS then
    match (transformEvent cfg spc st' rest).2 with
    | some o => (outs ++ [o ++ strL "\n\n"], shared')
    | none => (outs, shared')
  else (outs, shared')

/-- Concrete payload tree used by the completion-order scenario: one choice whose delta
carries a thought signature. -/
def sigDeltaTree : Json :=
  Json.obj [("choices", Json.arr [Json.obj [("delta",
    Json.obj [("thought_signature", Json.str "s")])]])]

/-- The corresponding SSE event text, with no trailing delimiter. -/
def sigDeltaEvent : List Char := strL "data: " ++ stringifyJson sigDeltaTree

/-- Observer: does the parsed request body contain a message the injection targets — a
last assistant message with a non-empty `tool_calls` array? -/
def hasTargetMsg (j : Json) : Bool :=
  match j with
  | .obj jfs =>
    match getField jfs "messages" with
    | some (.arr msgs) => (findLastTarget msgs).isSome
    | _ => false
  | _ => false

/-- Concrete request-body tree whose target message's first tool call is a *number*:
the input refuting the unconditional C2. -/
def c2BadTree : Json :=
  Json.obj [("messages", Json.arr [Json.obj
    [("role", Json.str "assistant"), ("tool_calls", Json.arr [Json.num 5])]])]

/-- Concrete well-formed request-body tree used as the C2 witness input. -/
def c2GoodTree : Json :=
  Json.obj [("messages", Json.arr [
    Json.obj [("role", Json.str "user"), ("content", Json.str "hi")],
    Json.obj [("role", Json.str "assistant"),
      ("tool_calls", Json.arr [Json.obj [("id", Json.str "x")]])]])]

-- ===========================================================================
-- Helper lemmas
-- ===========================================================================

theorem getField_setField_self (l : List (String × Json)) (k : String) (v : Json) :
    getField (setField l k v) k = some v := by
  induction l with
  | nil => simp [setField, getField]
  | cons p rest ih =>
    obtain ⟨k', v'⟩ := p
    by_cases h : k' = k <;> simp [setField, getField, h, ih]

theorem getField_eq_none_of_not_mem (l : List (String × Json)) (k : String)
    (h : k ∉ l.map Prod.fst) : getField l k = none := by
  induction l with
  | nil => rfl
  | cons p rest ih =>
    obtain ⟨k', v'⟩ := p
    simp only [List.map_cons, List.mem_cons, not_or] at h
    simp only [getField]
    rw [if_neg (show ¬ k' = k from fun hh => h.1 hh.symm)]
    exact ih h.2

theorem getField_delField_ne (l : List (String × Json)) (k k₀ : String) (h : k ≠ k₀) :
    getField (delField l k₀) k = getField l k := by
  induction l with
  | nil => rfl
  | cons p rest ih =>
    obtain ⟨k', v'⟩ := p
    simp only [delField, getField]
    by_cases h1 : k' = k₀
    · rw [if_pos h1, if_neg (fun hh : k' = k => h (hh ▸ h1 ▸ rfl))]
    · rw [if_neg h1]
      by_cases h2 : k' = k
      · simp only [getField, if_pos h2]
      · simp only [getField, if_neg h2, ih]

theorem getField_delField_nodup (l : List (String × Json)) (k : String)
    (h : (l.map Prod.fst).Nodup) : getField (delField l k) k = none := by
  induction l with
  | nil => rfl
  | cons p rest ih =>
    obtain ⟨k', v'⟩ := p
    simp only [List.map_cons, List.nodup_cons] at h
    simp only [delField]
    by_cases h1 : k' = k
    · rw [if_pos h1]
      exact getField_eq_none_of_not_mem rest k (h1 ▸ h.1)
    · rw [if_neg h1]
      simp only [getField, if_neg h1]
      exact ih h.2

theorem getToolCallKey_delField (fs : List (String × Json)) :
    getToolCallKey (.obj (delField fs "index")) = getToolCallKey (.obj fs) := by
  have h1 : getField (delField fs "index") "id" = getField fs "id" :=
    getField_delField_ne _ _ _ (by decide)
  have h2 : getField (delField fs "index") "function" = getField fs "function" :=
    getField_delField_ne _ _ _ (by decide)
  simp only [getToolCallKey, safeGetJ, h1, h2]

theorem splitNL_ne_nil (l : List Char) : splitNL l ≠ [] := by
  cases l with
  | nil => simp [splitNL]
  | cons c rest =>
    simp only [splitNL]
    by_cases h : c = '\n'
    · simp [h]
    · rw [if_neg h]
      cases hs : splitNL rest with
      | nil => simp
      | cons a as => simp

theorem mem_splitNL : ∀ (ev : List Char), ∀ l ∈ splitNL ev, ∀ c ∈ l, c ∈ ev := by
  intro ev
  induction ev with
  | nil =>
    intro l hl c hc
    simp only [splitNL, List.mem_singleton] at hl
    subst hl
    simp at hc
  | cons d rest ih =>
    intro l hl c hc
    by_cases hd : d = '\n'
    · subst hd
      rw [show splitNL ('\n' :: rest) = [] :: splitNL rest from by simp [splitNL]] at hl
      rcases List.mem_cons.mp hl with rfl | hl
      · simp at hc
      · exact List.mem_cons_of_mem _ (ih l hl c hc)
    · cases hs : splitNL rest with
      | nil => exact absurd hs (splitNL_ne_nil rest)
      | cons a as =>
        have heq : splitNL (d :: rest) = (d :: a) :: as := by
          simp [splitNL, hd, hs]
        rw [heq] at hl
        rcases List.mem_cons.mp hl with rfl | hl
        · rcases List.mem_cons.mp hc with rfl | hc
          · exact List.mem_cons_self _ _
          · refine List.mem_cons_of_mem _ (ih a ?_ c hc)
            rw [hs]
            exact List.mem_cons_self a as
        · refine List.mem_cons_of_mem _ (ih l ?_ c hc)
          rw [hs]
          exact List.mem_cons_of_mem a hl

-- ===========================================================================
-- C7 — string indices are parsed and rewritten
-- ===========================================================================

/-- C7: a tool-call fragment whose `index` is a numeric string is rewritten to the
corresponding number with a mutation report, and the choice state's next free index
afterwards is at least that number plus one; a string that does not parse is discarded
and the fragment is processed exactly as if it had no index (stated for fragments with
unduplicated keys, the only ones `JSON.parse` can produce). -/
theorem c7_string_index_handling (st : ChoiceIndexState) (fs : List (String × Json))
    (s : String) (hidx : getField fs "index" = some (.str s)) :
    (∀ n, parseIntJS s = some n →
      getField (ensureToolCallIndex st fs).2.1 "index" = some (.num n) ∧
      (ensureToolCallIndex st fs).2.2 = true ∧
      n + 1 ≤ (ensureToolCallIndex st fs).1.nextIndex) ∧
    ((fs.map Prod.fst).Nodup → parseIntJS s = none →
      ensureToolCallIndex st fs = ensureToolCallIndex st (delField fs "index")) := by
  constructor
  · intro n hn
    refine ⟨?_, ?_, ?_⟩ <;>
      simp [ensureToolCallIndex, hidx, hn, getField_setField_self, le_max_right]
  · intro hnodup hn
    have hdel : getField (delField fs "index") "index" = none :=
      getField_delField_nodup fs "index" hnodup
    simp only [ensureToolCallIndex, hidx, hn, hdel, getToolCallKey_delField]

/-- Witness for C7 at the concrete fragment `{index: "2"}`. -/
theorem c7_witness :
    getField ((ensureToolCallIndex initialChoiceState [("index", Json.str "2")]).2.1) "index"
        = some (.num 2) ∧
    (ensureToolCallIndex initialChoiceState [("index", Json.str "2")]).2.2 = true ∧
    (2 : Int) + 1 ≤ (ensureToolCallIndex initialChoiceState [("index", Json.str "2")]).1.nextIndex :=
  (c7_string_index_handling initialChoiceState [("index", Json.str "2")] "2" rfl).1 2 rfl

-- ===========================================================================
-- C8 — transformRequestBody no-op paths
-- ===========================================================================

/-- C8: `transformRequestBody` returns the body unchanged when the body does not parse
as JSON or when the parsed body has no non-empty `tools` array; being a total function
of the embedding it raises nothing. -/
theorem c8_transform_request_body_noop (body : List Char) (cfg : SchemaCfg) :
    (parseJson body = none → transformRequestBody body cfg = body) ∧
    (∀ j, parseJson body = some j → hasNonEmptyTools j = false →
      transformRequestBody body cfg = body) := by
  constructor
  · intro h
    simp [transformRequestBody, h]
  · intro j hj hne
    unfold transformRequestBody
    rw [hj]
    unfold hasNonEmptyTools at hne
    cases hts : safeGetJ j ["tools"] with
    | none => simp [hts]
    | some t =>
      rw [hts] at hne
      cases t with
      | arr ts =>
        have hemp : ts.isEmpty = true := by simpa using hne
        simp [hts, hemp]
      | null => simp [hts]
      | bool b => simp [hts]
      | num n => simp [hts]
      | str s => simp [hts]
      | obj fs => simp [hts]

/-- Witness for C8 on an unparsable body and on a parsable body without tools. -/
theorem c8_witness :
    transformRequestBody (strL "not json") defaultSchemaCfg = strL "not json" :=
  (c8_transform_request_body_noop (strL "not json") defaultSchemaCfg).1 rfl

-- ===========================================================================
-- C9 — events with an empty choices array pass through unchanged
-- ===========================================================================

theorem eventPayload_all_ws (ev p : List Char) (hp : eventPayload ev = some p) :
    ev.all isWSJS = false := by
  unfold eventPayload at hp
  by_cases hdl : ((splitNL ev).filter (fun l => (strL "data:").isPrefixOf l)).isEmpty
  · rw [if_pos hdl] at hp
    cases hp
  · have hne : ((splitNL ev).filter (fun l => (strL "data:").isPrefixOf l)) ≠ [] := by
      intro h
      exact hdl (by simp [h])
    obtain ⟨l, hlmem⟩ := List.exists_mem_of_ne_nil _ hne
    have hmem := (List.mem_filter.mp hlmem).1
    have hpref := (List.mem_filter.mp hlmem).2
    have hdl : 'd' ∈ l := by
      obtain ⟨t, ht⟩ := (List.isPrefixOf_iff_prefix.mp hpref)
      rw [← ht]
      exact List.mem_append_left _ (by decide)
    have hdev : 'd' ∈ ev := mem_splitNL ev l hmem 'd' hdl
    cases hall : ev.all isWSJS with
    | false => rfl
    | true =>
      have := List.all_eq_true.mp hall 'd' hdev
      exact absurd this (by decide)

/-- C9: an SSE event whose JSON payload has `choices: []` is passed through unchanged —
byte-identical, not dropped — and the stream state is untouched except for the debug
chunk counter, for every configuration. -/
theorem c9_empty_choices_pass_through (cfg : PatchCfg) (spc : StreamPatchConfig)
    (st : StreamState) (ev p : List Char) (j : Json)
    (hp : eventPayload ev = some p) (hj : parseJson p = some j)
    (hc : safeGetJ j ["choices"] = some (.arr [])) :
    transformEvent cfg spc st ev = ({ st with chunkCount := st.chunkCount + 1 }, some ev) := by
  have hnws := eventPayload_all_ws ev p hp
  have hne : p ≠ [] := by
    rintro rfl
    rw [show parseJson ([] : List Char) = none from rfl] at hj
    cases hj
  have hpe : p.isEmpty = false := by
    cases p with
    | nil => exact absurd rfl hne
    | cons a l => rfl
  have hnd : ¬ p = strL "[DONE]" := by
    rintro rfl
    rw [show parseJson (strL "[DONE]") = none from rfl] at hj
    cases hj
  have hchunk : patchChunkPayload p cfg spc { st with chunkCount := st.chunkCount + 1 } =
      ({ st with chunkCount := st.chunkCount + 1 }, none, false) := by
    simp [patchChunkPayload, hj, hc]
  simp [transformEvent, hnws, hp, hpe, hnd, hchunk]

/-- Witness for C9 at the concrete event `data: {"choices":[],"id":"z"}`. -/
theorem c9_witness :
    transformEvent ⟨true⟩ ⟨true, true⟩ initStreamState
      (strL "data: " ++ stringifyJson (.obj [("choices", .arr []), ("id", .str "z")])) =
    ({ initStreamState with chunkCount := 1 },
     some (strL "data: " ++ stringifyJson (.obj [("choices", .arr []), ("id", .str "z")]))) :=
  c9_empty_choices_pass_through ⟨true⟩ ⟨true, true⟩ initStreamState
    (strL "data: " ++ stringifyJson (.obj [("choices", .arr []), ("id", .str "z")]))
    (stringifyJson (.obj [("choices", .arr []), ("id", .str "z")]))
    (.obj [("choices", .arr []), ("id", .str "z")]) rfl rfl rfl

-- ===========================================================================
-- C6 — post-tool_calls empty chunks: dropped when filtering, forwarded otherwise
-- ===========================================================================

theorem safeGetJ_single (fs : List (String × Json)) (k : String) :
    safeGetJ (.obj fs) [k] = getField fs k := by
  simp only [safeGetJ]
  cases getField fs k <;> simp [safeGetJ]

theorem sfe_go_true (cs : List Json)
    (hempty : ∀ c ∈ cs, ∀ dfs, safeGetJ c ["delta"] = some (.obj dfs) →
      (∀ e es, getField dfs "tool_calls" ≠ some (.arr (e :: es))) ∧
      (∀ s, getField dfs "content" = some (.str s) → s = "")) :
    ∀ b : Bool, (b = true ∨ ∃ c ∈ cs, ∃ dfs, safeGetJ c ["delta"] = some (.obj dfs)) →
      shouldFilterEmptyChunkGo cs b = true := by
  induction cs with
  | nil =>
    intro b hb
    rcases hb with rfl | ⟨c, hc, _⟩
    · rfl
    · simp at hc
  | cons c rest ih =>
    intro b hb
    have hempty' := fun c' hc' => hempty c' (List.mem_cons_of_mem c hc')
    cases hdelta : safeGetJ c ["delta"] with
    | none =>
      simp only [shouldFilterEmptyChunkGo, hdelta]
      refine ih hempty' b ?_
      rcases hb with rfl | ⟨c', hc', dfs, hdfs⟩
      · exact Or.inl rfl
      · rcases List.mem_cons.mp hc' with rfl | hmem
        · rw [hdelta] at hdfs; cases hdfs
        · exact Or.inr ⟨c', hmem, dfs, hdfs⟩
    | some d =>
      cases d with
      | obj dfs =>
        have he := hempty c (List.mem_cons_self c rest) dfs hdelta
        have htc : (match getField dfs "tool_calls" with
            | some (.arr (_ :: _)) => true
            | _ => false) = false := by
          cases htc' : getField dfs "tool_calls" with
          | none => rfl
          | some tc =>
            cases tc with
            | arr es =>
              cases es with
              | nil => rfl
              | cons e es' => exact absurd htc' (he.1 e es')
            | null => rfl
            | bool b' => rfl
            | num n => rfl
            | str s => rfl
            | obj o => rfl
        have hct : (match getField dfs "content" with
            | some (.str s) => s != ""
            | _ => false) = false := by
          cases hct' : getField dfs "content" with
          | none => rfl
          | some v =>
            cases v with
            | str s => simpa using he.2 s hct'
            | null => rfl
            | bool b' => rfl
            | num n => rfl
            | arr es => rfl
            | obj o => rfl
        simp only [shouldFilterEmptyChunkGo, hdelta, htc, hct]
        simp only [Bool.false_eq_true, if_false]
        exact ih hempty' true (Or.inl rfl)
      | null =>
        simp only [shouldFilterEmptyChunkGo, hdelta]
        refine ih hempty' b ?_
        rcases hb with rfl | ⟨c', hc', dfs, hdfs⟩
        · exact Or.inl rfl
        · rcases List.mem_cons.mp hc' with rfl | hmem
          · rw [hdelta] at hdfs; cases hdfs
          · exact Or.inr ⟨c', hmem, dfs, hdfs⟩
      | bool b' =>
        simp only [shouldFilterEmptyChunkGo, hdelta]
        refine ih hempty' b ?_
        rcases hb with rfl | ⟨c', hc', dfs, hdfs⟩
        · exact Or.inl rfl
        · rcases List.mem_cons.mp hc' with rfl | hmem
          · rw [hdelta] at hdfs; cases hdfs
          · exact Or.inr ⟨c', hmem, dfs, hdfs⟩
      | num n =>
        simp only [shouldFilterEmptyChunkGo, hdelta]
        refine ih hempty' b ?_
        rcases hb with rfl | ⟨c', hc', dfs, hdfs⟩
        · exact Or.inl rfl
        · rcases List.mem_cons.mp hc' with rfl | hmem
          · rw [hdelta] at hdfs; cases hdfs
          · exact Or.inr ⟨c', hmem, dfs, hdfs⟩
      | str s =>
        simp only [shouldFilterEmptyChunkGo, hdelta]
        refine ih hempty' b ?_
        rcases hb with rfl | ⟨c', hc', dfs, hdfs⟩
        · exact Or.inl rfl
        · rcases List.mem_cons.mp hc' with rfl | hmem
          · rw [hdelta] at hdfs; cases hdfs
          · exact Or.inr ⟨c', hmem, dfs, hdfs⟩
      | arr es =>
        simp only [shouldFilterEmptyChunkGo, hdelta]
        refine ih hempty' b ?_
        rcases hb with rfl | ⟨c', hc', dfs, hdfs⟩
        · exact Or.inl rfl
        · rcases List.mem_cons.mp hc' with rfl | hmem
          · rw [hdelta] at hdfs; cases hdfs
          · exact Or.inr ⟨c', hmem, dfs, hdfs⟩

theorem patchOneChoice_no_mutation (st : StreamState) (c : Json)
    (hc : ∀ dfs, safeGetJ c ["delta"] = some (.obj dfs) →
      ∀ e es, getField dfs "tool_calls" ≠ some (.arr (e :: es))) :
    (patchOneChoice st c).2.2 = false := by
  cases c with
  | obj cfs =>
    have hs := safeGetJ_single cfs "delta"
    cases hd : getField cfs "delta" with
    | none => simp [patchOneChoice, hd]
    | some d =>
      cases d with
      | obj dfs =>
        have hne := hc dfs (by rw [hs, hd])
        cases htc : getField dfs "tool_calls" with
        | none => simp [patchOneChoice, hd, htc]
        | some tc =>
          cases tc with
          | arr es =>
            cases es with
            | nil => simp [patchOneChoice, hd, htc]
            | cons e es' => exact absurd htc (hne e es')
          | null => simp [patchOneChoice, hd, htc]
          | bool b => simp [patchOneChoice, hd, htc]
          | num n => simp [patchOneChoice, hd, htc]
          | str s => simp [patchOneChoice, hd, htc]
          | obj o => simp [patchOneChoice, hd, htc]
      | null => simp [patchOneChoice, hd]
      | bool b => simp [patchOneChoice, hd]
      | num n => simp [patchOneChoice, hd]
      | str s => simp [patchOneChoice, hd]
      | arr es => simp [patchOneChoice, hd]
  | null => simp [patchOneChoice]
  | bool b => simp [patchOneChoice]
  | num n => simp [patchOneChoice]
  | str s => simp [patchOneChoice]
  | arr es => simp [patchOneChoice]

theorem patchToolCallIndices_no_mutation (cs : List Json)
    (hempty : ∀ c ∈ cs, ∀ dfs, safeGetJ c ["delta"] = some (.obj dfs) →
      ∀ e es, getField dfs "tool_calls" ≠ some (.arr (e :: es))) :
    ∀ st, (patchToolCallIndices cs st).2.2 = false := by
  induction cs with
  | nil => intro st; rfl
  | cons c rest ih =>
    intro st
    have h1 := patchOneChoice_no_mutation st c (hempty c (List.mem_cons_self c rest))
    have ih' := ih (fun c' hc' => hempty c' (List.mem_cons_of_mem c hc'))
    simp only [patchToolCallIndices]
    rcases hone : patchOneChoice st c with ⟨st1, c', m1⟩
    rw [hone] at h1
    simp only at h1
    subst h1
    rcases hrest : patchToolCallIndices rest st1 with ⟨st2, rest', m2⟩
    have := ih' st1
    rw [hrest] at this
    simp only at this
    subst this
    simp

theorem extractState_saw (cfgH : Bool) (cs : List Json) (st : StreamState) :
    (extractState cfgH cs st).sawToolCallsFinish = st.sawToolCallsFinish := by
  cases cfgH with
  | false => rfl
  | true =>
    simp only [extractState]
    cases extractThoughtSignature cs <;> rfl

/-- C6: once a `finish_reason: "tool_calls"` has been observed (the latched
`sawToolCallsFinish` flag), an event all of whose delta-bearing choices carry neither a
non-empty content string nor a non-empty tool-call array — with at least one choice
having a delta object — is dropped when empty-chunk filtering is enabled and forwarded
byte-identically when it is disabled. -/
theorem c6_empty_chunk_filter_behaviour (cfg : PatchCfg) (assign : Bool) (st : StreamState)
    (ev p : List Char) (j : Json) (cs : List Json)
    (hst : st.sawToolCallsFinish = true)
    (hp : eventPayload ev = some p) (hj : parseJson p = some j)
    (hc : safeGetJ j ["choices"] = some (.arr cs)) (hcs : cs ≠ [])
    (hvalid : ∃ c ∈ cs, ∃ dfs, safeGetJ c ["delta"] = some (.obj dfs))
    (hempty : ∀ c ∈ cs, ∀ dfs, safeGetJ c ["delta"] = some (.obj dfs) →
      (∀ e es, getField dfs "tool_calls" ≠ some (.arr (e :: es))) ∧
      (∀ s, getField dfs "content" = some (.str s) → s = "")) :
    (transformEvent cfg ⟨true, assign⟩ st ev).2 = none ∧
    (transformEvent cfg ⟨false, assign⟩ st ev).2 = some ev := by
  have hnws := eventPayload_all_ws ev p hp
  have hne : p ≠ [] := by
    rintro rfl
    rw [show parseJson ([] : List Char) = none from rfl] at hj
    cases hj
  have hpe : p.isEmpty = false := by
    cases p with
    | nil => exact absurd rfl hne
    | cons a l => rfl
  have hnd : ¬ p = strL "[DONE]" := by
    rintro rfl
    rw [show parseJson (strL "[DONE]") = none from rfl] at hj
    cases hj
  have hcsne : cs.isEmpty = false := by
    cases cs with
    | nil => exact absurd rfl hcs
    | cons a l => rfl
  have hfilter : shouldFilterEmptyChunk cs = true :=
    sfe_go_true cs hempty false (Or.inr hvalid)
  have hmut := patchToolCallIndices_no_mutation cs
    (fun c hcm dfs hdfs => (hempty c hcm dfs hdfs).1)
  have hsawE : (extractState cfg.handleThoughtSignature cs
      { st with chunkCount := st.chunkCount + 1 }).sawToolCallsFinish = true := by
    rw [extractState_saw]
    exact hst
  constructor
  · -- filtering enabled: the event is dropped
    have hpcA : patchChunkPayload p cfg ⟨true, assign⟩ { st with chunkCount := st.chunkCount + 1 } =
        (extractState cfg.handleThoughtSignature cs { st with chunkCount := st.chunkCount + 1 },
         none, true) := by
      simp [patchChunkPayload, hj, hc, hcsne, hsawE, hfilter]
    simp [transformEvent, hnws, hp, hpe, hnd, hpcA]
  · -- filtering disabled: the event is forwarded unchanged
    have hpcB : ∃ st2, patchChunkPayload p cfg ⟨false, assign⟩
        { st with chunkCount := st.chunkCount + 1 } = (st2, none, false) := by
      cases assign with
      | false =>
        refine ⟨extractState cfg.handleThoughtSignature cs
          { st with chunkCount := st.chunkCount + 1 }, ?_⟩
        simp [patchChunkPayload, hj, hc, hcsne]
      | true =>
        rcases hpt : patchToolCallIndices cs (extractState cfg.handleThoughtSignature cs
            { st with chunkCount := st.chunkCount + 1 }) with ⟨st2, cs', m⟩
        have hm := hmut (extractState cfg.handleThoughtSignature cs
          { st with chunkCount := st.chunkCount + 1 })
        rw [hpt] at hm
        simp only at hm
        subst hm
        refine ⟨st2, ?_⟩
        simp [patchChunkPayload, hj, hc, hcsne, hpt]
    obtain ⟨st2, hpcB⟩ := hpcB
    simp [transformEvent, hnws, hp, hpe, hnd, hpcB]

/-- Witness for C6 at the concrete post-tool_calls event `data: {"choices":[{"delta":{}}]}`. -/
theorem c6_witness :
    (transformEvent ⟨false⟩ ⟨true, true⟩ { initStreamState with sawToolCallsFinish := true }
      (strL "data: " ++ stringifyJson (.obj [("choices", .arr [.obj [("delta", .obj [])]])]))).2
        = none ∧
    (transformEvent ⟨false⟩ ⟨false, true⟩ { initStreamState with sawToolCallsFinish := true }
      (strL "data: " ++ stringifyJson (.obj [("choices", .arr [.obj [("delta", .obj [])]])]))).2
        = some (strL "data: " ++
            stringifyJson (.obj [("choices", .arr [.obj [("delta", .obj [])]])])) :=
  c6_empty_chunk_filter_behaviour ⟨false⟩ true { initStreamState with sawToolCallsFinish := true }
    (strL "data: " ++ stringifyJson (.obj [("choices", .arr [.obj [("delta", .obj [])]])]))
    (stringifyJson (.obj [("choices", .arr [.obj [("delta", .obj [])]])]))
    (.obj [("choices", .arr [.obj [("delta", .obj [])]])])
    [.obj [("delta", .obj [])]]
    rfl rfl rfl rfl (by simp)
    ⟨.obj [("delta", .obj [])], by simp, ⟨[], rfl⟩⟩
    (by
      intro c hcm dfs hdfs
      simp only [List.mem_singleton] at hcm
      subst hcm
      simp only [show safeGetJ (Json.obj [("delta", Json.obj [])]) ["delta"] = some (.obj [])
        from rfl, Option.some.injEq, Json.obj.injEq] at hdfs
      subst hdfs
      exact ⟨fun e es h => by simp [getField] at h, fun s h => by simp [getField] at h⟩)


-- ===========================================================================
-- C5 — completion order: signature handoff happens BEFORE the trailing flush
-- ===========================================================================

/-- C5 counterexample: a stream whose only event sits unterminated in the trailing
buffer and carries a thought signature.  The flush does emit the event, and running the
event through `transformEvent` does capture the signature — yet the shared signature
state after completion is still `none`, because the source stores the captured signature
*before* flushing the trailing buffer.  This falsifies the claim that the pipeline
"first flushes … and then … copies", in particular that a signature extracted from the
flushed trailing event is handed off. -/
theorem c5_counterexample :
    (runPull ⟨true⟩ streamPatchConfig [sigDeltaEvent] ⟨[], initStreamState⟩ none).2 = none ∧
    (runPull ⟨true⟩ streamPatchConfig [sigDeltaEvent] ⟨[], initStreamState⟩ none).1 =
      [sigDeltaEvent ++ strL "\n\n"] ∧
    (transformEvent ⟨true⟩ streamPatchConfig initStreamState
      sigDeltaEvent).1.thoughtSignature = some "s" :=
  ⟨rfl, rfl, rfl⟩

/-- C5 (amended): when the upstream signals completion, the pipeline first copies the
signature captured *during the already-delivered events* into the cross-request
signature state, and only then flushes a non-blank trailing buffer through the event
transform; a signature extracted from the flushed trailing event is therefore not part
of the handoff, although the flushed event itself is still emitted. -/
theorem c5_amended_completion_order (cfg : PatchCfg) (spc : StreamPatchConfig)
    (ps : PullState) (shared : Option String) :
    (runPull cfg spc [] ps shared).2 = handoffSignature cfg ps.ss.thoughtSignature shared ∧
    (runPull cfg spc [] ps shared).1 =
      (if ps.buffer.all isWSJS then []
       else
        match (transformEvent cfg spc ps.ss ps.buffer).2 with
        | some o => [o ++ strL "\n\n"]
        | none => []) := by
  cases hb : ps.buffer.all isWSJS with
  | true => exact ⟨by simp [runPull, hb], by simp [runPull, hb]⟩
  | false =>
    cases ht : (transformEvent cfg spc ps.ss ps.buffer).2 with
    | none => exact ⟨by simp [runPull, hb, ht], by simp [runPull, hb, ht]⟩
    | some o => exact ⟨by simp [runPull, hb, ht], by simp [runPull, hb, ht]⟩

-- ===========================================================================
-- C2 — thought-signature injection
-- ===========================================================================

/-- C2 counterexample: a body whose last (and only) message is an assistant message with
the non-empty tool-call list `[5]`.  The claim's antecedent holds — the body parses and
the backwards search finds the message — yet the returned body is unchanged and contains
no signature at `tool_calls[0].extra_content.google.thought_signature` (nor anywhere),
because the first tool call is not an object. -/
theorem c2_counterexample :
    parseJson (stringifyJson c2BadTree) = some c2BadTree ∧
    hasTargetMsg c2BadTree = true ∧
    injectThoughtSignature (stringifyJson c2BadTree) "SIG" = stringifyJson c2BadTree ∧
    hasKeyDeep "thought_signature" c2BadTree = false :=
  ⟨rfl, rfl, rfl, rfl⟩

theorem injectCore_eq_none_of_no_target (j : Json) (sig : String)
    (h : hasTargetMsg j = false) : injectCore j sig = none := by
  cases j with
  | obj jfs =>
    unfold hasTargetMsg at h
    have h' : (match getField jfs "messages" with
        | some (Json.arr msgs) => (findLastTarget msgs).isSome
        | _ => false) = false := h
    unfold injectCore
    cases hm : getField jfs "messages" with
    | none => simp [hm]
    | some m =>
      cases m with
      | arr msgs =>
        rw [hm] at h'
        cases msgs with
        | nil => simp [hm]
        | cons a l =>
          simp only at h'
          cases ht : findLastTarget (a :: l) with
          | none => simp [hm, ht]
          | some i => rw [ht] at h'; simp at h'
      | null => simp [hm]
      | bool b => simp [hm]
      | num n => simp [hm]
      | str s => simp [hm]
      | obj o => simp [hm]
  | null => rfl
  | bool b => rfl
  | num n => rfl
  | str s => rfl
  | arr es => rfl

/-- C2 (amended): parse the body and locate the last assistant message with a non-empty
`tool_calls` array.  If none exists the original body is returned unchanged.  If one
exists and its first tool call is a plain object whose truthy `extra_content` and
`extra_content.google` containers (when present) are objects, the result is exactly the
re-serialization of the tree with the signature written at
`tool_calls[0].extra_content.google.thought_signature` of that message — absent or falsy
containers being created — and nothing else changed, in particular no other tool call of
that message.  If the first tool call is not a plain object, the original body is
returned unchanged with no signature written. -/
theorem c2_amended_injection (body : List Char) (sig : String) (j : Json)
    (hb : parseJson body = some j) :
    (hasTargetMsg j = false → injectThoughtSignature body sig = body) ∧
    (∀ jfs msgs i mfs fcfs tcRest,
      j = .obj jfs → getField jfs "messages" = some (.arr msgs) →
      findLastTarget msgs = some i → msgs.getD i .null = .obj mfs →
      getField mfs "tool_calls" = some (.arr (.obj fcfs :: tcRest)) →
      c2Containers (.obj fcfs) = true →
      injectThoughtSignature body sig = stringifyJson (specInject j i sig)) ∧
    (∀ jfs msgs i mfs fc tcRest,
      j = .obj jfs → getField jfs "messages" = some (.arr msgs) →
      findLastTarget msgs = some i → msgs.getD i .null = .obj mfs →
      getField mfs "tool_calls" = some (.arr (fc :: tcRest)) →
      isObj fc = false →
      injectThoughtSignature body sig = body) := by
  refine ⟨?_, ?_, ?_⟩
  · intro h
    simp [injectThoughtSignature, hb, injectCore_eq_none_of_no_target j sig h]
  · intro jfs msgs i mfs fcfs tcRest hj hmsgs hti hgd htcs hcont
    subst hj
    have hmne : msgs.isEmpty = false := by
      cases msgs with
      | nil => simp [findLastTarget] at hti
      | cons a l => rfl
    simp only [injectThoughtSignature, hb]
    simp only [injectCore, specInject, hmsgs, hmne, hti, hgd, htcs, Bool.false_eq_true, if_false]
    unfold c2Containers at hcont
    have hcont' : (match getField fcfs "extra_content" with
        | some ec =>
          if truthy ec = true then
            match ec with
            | Json.obj ecfs =>
              match getField ecfs "google" with
              | some g => if truthy g = true then isObj g else true
              | none => true
            | _ => false
          else true
        | none => true) = true := hcont
    clear hcont
    cases hec : getField fcfs "extra_content" with
    | none => simp [hec, getField, setField]
    | some ec =>
      rw [hec] at hcont'
      cases ec with
      | obj ecfs =>
        have hcont2 : (match getField ecfs "google" with
            | some g => if truthy g = true then isObj g else true
            | none => true) = true := hcont'
        clear hcont'
        simp only [hec, truthy, if_true]
        cases hg : getField ecfs "google" with
        | none => simp [hg, getField, setField]
        | some g =>
          rw [hg] at hcont2
          cases g with
          | obj gfs => simp [hg, getField, setField]
          | arr es => simp [truthy, isObj] at hcont2
          | null => simp [hg, truthy, getField, setField]
          | bool b =>
            cases b with
            | false => simp [hg, truthy, getField, setField]
            | true => simp [truthy, isObj] at hcont2
          | num n =>
            by_cases hn : n = 0
            · subst hn; simp [hg, truthy, getField, setField]
            · simp [truthy, hn, isObj] at hcont2
          | str s =>
            by_cases hs : s = ""
            · subst hs; simp [hg, truthy, getField, setField]
            · simp [truthy, hs, isObj] at hcont2
      | arr es => simp [truthy] at hcont'
      | null => simp [hec, truthy, getField, setField]
      | bool b =>
        cases b with
        | false => simp [hec, truthy, getField, setField]
        | true => simp [truthy] at hcont'
      | num n =>
        by_cases hn : n = 0
        · subst hn; simp [hec, truthy, getField, setField]
        · simp [truthy, hn] at hcont'
      | str s =>
        by_cases hs : s = ""
        · subst hs; simp [hec, truthy, getField, setField]
        · simp [truthy, hs] at hcont'
  · intro jfs msgs i mfs fc tcRest hj hmsgs hti hgd htcs hfc
    subst hj
    have hmne : msgs.isEmpty = false := by
      cases msgs with
      | nil => simp [findLastTarget] at hti
      | cons a l => rfl
    simp only [injectThoughtSignature, hb]
    simp only [injectCore, hmsgs, hmne, hti, hgd, htcs, Bool.false_eq_true, if_false]
    cases fc with
    | obj fcfs => simp [isObj] at hfc
    | null => rfl
    | bool b => rfl
    | num n => rfl
    | str s => rfl
    | arr es => rfl

/-- Witness for C2 at a concrete two-message conversation. -/
theorem c2_witness :
    injectThoughtSignature (stringifyJson c2GoodTree) "SIG" =
      stringifyJson (specInject c2GoodTree 1 "SIG") :=
  ((c2_amended_injection (stringifyJson c2GoodTree) "SIG" c2GoodTree rfl).2.1
    [("messages", Json.arr [
      Json.obj [("role", Json.str "user"), ("content", Json.str "hi")],
      Json.obj [("role", Json.str "assistant"),
        ("tool_calls", Json.arr [Json.obj [("id", Json.str "x")]])]])]
    [Json.obj [("role", Json.str "user"), ("content", Json.str "hi")],
     Json.obj [("role", Json.str "assistant"),
       ("tool_calls", Json.arr [Json.obj [("id", Json.str "x")]])]]
    1
    [("role", Json.str "assistant"), ("tool_calls", Json.arr [Json.obj [("id", Json.str "x")]])]
    [("id", Json.str "x")]
    []
    rfl rfl rfl rfl rfl rfl)

-- ===========================================================================
-- C1 — tracker index assignment
-- ===========================================================================

theorem getAssignedNat_append_left (m m₂ : List (String × Nat)) (k : String) (v : Nat)
    (h : getAssignedNat m k = some v) : getAssignedNat (m ++ m₂) k = some v := by
  induction m with
  | nil => simp [getAssignedNat] at h
  | cons p rest ih =>
    obtain ⟨k', v'⟩ := p
    simp only [getAssignedNat, List.cons_append] at *
    by_cases hk : k' = k
    · simpa [hk] using h
    · rw [if_neg hk] at h ⊢
      exact ih h

theorem getAssignedNat_append_fresh (m : List (String × Nat)) (k : String) (v : Nat)
    (h : getAssignedNat m k = none) : getAssignedNat (m ++ [(k, v)]) k = some v := by
  induction m with
  | nil => simp [getAssignedNat]
  | cons p rest ih =>
    obtain ⟨k', v'⟩ := p
    simp only [getAssignedNat, List.cons_append] at *
    by_cases hk : k' = k
    · simp [hk] at h
    · rw [if_neg hk] at h ⊢
      exact ih h

theorem getAssignedNat_mem (m : List (String × Nat)) (k : String) (v : Nat)
    (h : getAssignedNat m k = some v) : (k, v) ∈ m := by
  induction m with
  | nil => simp [getAssignedNat] at h
  | cons p rest ih =>
    obtain ⟨k', v'⟩ := p
    simp only [getAssignedNat] at h
    by_cases hk : k' = k
    · rw [if_pos hk] at h
      cases h
      simp [hk]
    · rw [if_neg hk] at h
      exact List.mem_cons_of_mem _ (ih h)

theorem getAssignedNat_none_not_mem (m : List (String × Nat)) (k : String)
    (h : getAssignedNat m k = none) : k ∉ m.map Prod.fst := by
  induction m with
  | nil => simp
  | cons p rest ih =>
    obtain ⟨k', v'⟩ := p
    simp only [getAssignedNat] at h
    by_cases hk : k' = k
    · simp [hk] at h
    · rw [if_neg hk] at h
      simp only [List.map_cons, List.mem_cons, not_or]
      exact ⟨fun hh => hk hh.symm, ih h⟩

theorem spec_length (ks : List (Option String)) :
    ∀ n m, (specAssignIndices n m ks).length = ks.length := by
  induction ks with
  | nil => intro n m; rfl
  | cons kh ks' ih =>
    intro n m
    cases kh with
    | none => simp [specAssignIndices, ih]
    | some k =>
      cases hl : getAssignedNat m k with
      | some v => simp [specAssignIndices, hl, ih]
      | none => simp [specAssignIndices, hl, ih]

theorem spec_lookup_stable (ks : List (Option String)) :
    ∀ (n : Nat) (m : List (String × Nat)) (k : String) (v : Nat) (j : Nat),
      getAssignedNat m k = some v → ks[j]? = some (some k) →
      (specAssignIndices n m ks)[j]? = some v := by
  induction ks with
  | nil =>
    intro n m k v j h1 h2
    simp at h2
  | cons kh ks' ih =>
    intro n m k v j h1 h2
    cases j with
    | zero =>
      simp only [List.getElem?_cons_zero, Option.some.injEq] at h2
      subst h2
      simp only [specAssignIndices, h1, List.getElem?_cons_zero]
    | succ j' =>
      simp only [List.getElem?_cons_succ] at h2
      cases kh with
      | none =>
        simp only [specAssignIndices, List.getElem?_cons_succ]
        exact ih (n + 1) m k v j' h1 h2
      | some k₁ =>
        cases hl : getAssignedNat m k₁ with
        | some v₁ =>
          simp only [specAssignIndices, hl, List.getElem?_cons_succ]
          exact ih n m k v j' h1 h2
        | none =>
          simp only [specAssignIndices, hl, List.getElem?_cons_succ]
          exact ih (n + 1) (m ++ [(k₁, n)]) k v j'
            (getAssignedNat_append_left m [(k₁, n)] k v h1) h2

theorem spec_avoid_value (ks : List (Option String)) :
    ∀ (n : Nat) (m : List (String × Nat)) (v : Nat) (k₀ : String),
      (∀ p ∈ m, p.2 = v → p.1 = k₀) → v < n →
    ∀ (j : Nat), (ks[j]? = some none ∨ (∃ k', ks[j]? = some (some k') ∧ k' ≠ k₀)) →
    (specAssignIndices n m ks)[j]? ≠ some v := by
  induction ks with
  | nil =>
    intro n m v k₀ hm hv j hj
    rcases hj with hj | ⟨k', hj, _⟩ <;> simp at hj
  | cons kh ks' ih =>
    intro n m v k₀ hm hv j hj
    cases j with
    | zero =>
      rcases hj with hj | ⟨k', hj, hk'⟩
      · simp only [List.getElem?_cons_zero, Option.some.injEq] at hj
        subst hj
        simp only [specAssignIndices, List.getElem?_cons_zero]
        intro hcontra
        cases hcontra
        exact absurd rfl (Nat.ne_of_gt hv)
      · simp only [List.getElem?_cons_zero, Option.some.injEq] at hj
        subst hj
        cases hl : getAssignedNat m k' with
        | some v₁ =>
          simp only [specAssignIndices, hl, List.getElem?_cons_zero]
          intro hcontra
          injection hcontra with hv₁
          exact hk' (hm (k', v₁) (getAssignedNat_mem m k' v₁ hl) hv₁)
        | none =>
          simp only [specAssignIndices, hl, List.getElem?_cons_zero]
          intro hcontra
          injection hcontra with hn
          exact absurd hn.symm (Nat.ne_of_lt hv)
    | succ j' =>
      have hj' : ks'[j']? = some none ∨ ∃ k', ks'[j']? = some (some k') ∧ k' ≠ k₀ := by
        rcases hj with hj | ⟨k', hj, hk'⟩
        · simp only [List.getElem?_cons_succ] at hj
          exact Or.inl hj
        · simp only [List.getElem?_cons_succ] at hj
          exact Or.inr ⟨k', hj, hk'⟩
      cases kh with
      | none =>
        simp only [specAssignIndices, List.getElem?_cons_succ]
        exact ih (n + 1) m v k₀ hm (Nat.lt_succ_of_lt hv) j' hj'
      | some k₁ =>
        cases hl : getAssignedNat m k₁ with
        | some v₁ =>
          simp only [specAssignIndices, hl, List.getElem?_cons_succ]
          exact ih n m v k₀ hm hv j' hj'
        | none =>
          simp only [specAssignIndices, hl, List.getElem?_cons_succ]
          refine ih (n + 1) (m ++ [(k₁, n)]) v k₀ ?_ (Nat.lt_succ_of_lt hv) j' hj'
          intro p hp hpv
          rcases List.mem_append.mp hp with hp | hp
          · exact hm p hp hpv
          · simp only [List.mem_singleton] at hp
            subst hp
            simp only at hpv
            exact absurd hpv.symm (Nat.ne_of_lt hv)

theorem nodup_values_unique (m : List (String × Nat)) (hnd : (m.map Prod.snd).Nodup)
    (k : String) (v : Nat) (hkm : (k, v) ∈ m) :
    ∀ p ∈ m, p.2 = v → p.1 = k := by
  induction m with
  | nil => simp at hkm
  | cons q rest ih =>
    obtain ⟨kq, vq⟩ := q
    simp only [List.map_cons, List.nodup_cons] at hnd
    intro p hp hpv
    rcases List.mem_cons.mp hkm with hkv | hkv
    · cases hkv
      rcases List.mem_cons.mp hp with rfl | hp
      · rfl
      · exact absurd (hpv ▸ List.mem_map_of_mem Prod.snd hp) hnd.1
    · rcases List.mem_cons.mp hp with rfl | hp
      · simp only at hpv
        subst hpv
        exact absurd (List.mem_map_of_mem Prod.snd hkv) hnd.1
      · exact ih hnd.2 hkv p hp hpv

/-- Well-formedness of the reference assignment state: recorded indices are below the
counter, keys are unique, and recorded indices are pairwise distinct. -/
def SpecWF (n : Nat) (m : List (String × Nat)) : Prop :=
  (∀ p ∈ m, p.2 < n) ∧ (m.map Prod.fst).Nodup ∧ (m.map Prod.snd).Nodup

theorem spec_wf_bump (n : Nat) (m : List (String × Nat)) (h : SpecWF n m) :
    SpecWF (n + 1) m :=
  ⟨fun p hp => Nat.lt_succ_of_lt (h.1 p hp), h.2.1, h.2.2⟩

theorem spec_wf_extend (n : Nat) (m : List (String × Nat)) (k : String)
    (h : SpecWF n m) (hl : getAssignedNat m k = none) :
    SpecWF (n + 1) (m ++ [(k, n)]) := by
  refine ⟨?_, ?_, ?_⟩
  · intro p hp
    rcases List.mem_append.mp hp with hp | hp
    · exact Nat.lt_succ_of_lt (h.1 p hp)
    · simp only [List.mem_singleton] at hp
      subst hp
      exact Nat.lt_succ_self n
  · rw [List.map_append]
    refine List.Nodup.append h.2.1 (by simp) ?_
    intro a ha hb
    simp only [List.map_cons, List.map_nil, List.mem_singleton] at hb
    exact getAssignedNat_none_not_mem m k hl (hb ▸ ha)
  · rw [List.map_append]
    refine List.Nodup.append h.2.2 (by simp) ?_
    intro a ha hb
    simp only [List.map_cons, List.map_nil, List.mem_singleton] at hb
    rw [hb] at ha
    obtain ⟨p, hp, hpa⟩ := List.mem_map.mp ha
    have := h.1 p hp
    omega

theorem spec_ne_value (ks : List (Option String)) :
    ∀ (n : Nat) (m : List (String × Nat)) (v : Nat), (∀ p ∈ m, p.2 ≠ v) → v < n →
    ∀ (j : Nat), (specAssignIndices n m ks)[j]? ≠ some v := by
  induction ks with
  | nil =>
    intro n m v hm hv j
    simp [specAssignIndices]
  | cons kh ks' ih =>
    intro n m v hm hv j
    cases kh with
    | none =>
      cases j with
      | zero =>
        simp only [specAssignIndices, List.getElem?_cons_zero]
        intro hcontra
        injection hcontra with hn
        exact absurd hn.symm (Nat.ne_of_lt hv)
      | succ j' =>
        simp only [specAssignIndices, List.getElem?_cons_succ]
        exact ih (n + 1) m v hm (Nat.lt_succ_of_lt hv) j'
    | some k =>
      cases hl : getAssignedNat m k with
      | some v₁ =>
        cases j with
        | zero =>
          simp only [specAssignIndices, hl, List.getElem?_cons_zero]
          intro hcontra
          injection hcontra with hv₁
          exact hm _ (getAssignedNat_mem m k v₁ hl) hv₁
        | succ j' =>
          simp only [specAssignIndices, hl, List.getElem?_cons_succ]
          exact ih n m v hm hv j'
      | none =>
        cases j with
        | zero =>
          simp only [specAssignIndices, hl, List.getElem?_cons_zero]
          intro hcontra
          injection hcontra with hn
          exact absurd hn.symm (Nat.ne_of_lt hv)
        | succ j' =>
          simp only [specAssignIndices, hl, List.getElem?_cons_succ]
          refine ih (n + 1) (m ++ [(k, n)]) v ?_ (Nat.lt_succ_of_lt hv) j'
          intro p hp
          rcases List.mem_append.mp hp with hp | hp
          · exact hm p hp
          · simp only [List.mem_singleton] at hp
            subst hp
            exact fun hh => absurd hh.symm (Nat.ne_of_lt hv)

theorem spec_head_eq (ks' : List (Option String)) (n : Nat) (m : List (String × Nat))
    (k : String) (j' : Nat) (hj : ks'[j']? = some (some k)) :
    (specAssignIndices n m (some k :: ks'))[0]? =
    (specAssignIndices n m (some k :: ks'))[j' + 1]? := by
  cases hl : getAssignedNat m k with
  | some v =>
    simp only [specAssignIndices, hl, List.getElem?_cons_zero, List.getElem?_cons_succ]
    exact (spec_lookup_stable ks' n m k v j' hl hj).symm
  | none =>
    simp only [specAssignIndices, hl, List.getElem?_cons_zero, List.getElem?_cons_succ]
    exact (spec_lookup_stable ks' (n + 1) (m ++ [(k, n)]) k n j'
      (getAssignedNat_append_fresh m k n hl) hj).symm

theorem spec_same_key (ks : List (Option String)) :
    ∀ (n : Nat) (m : List (String × Nat)) (i j : Nat) (k : String),
      ks[i]? = some (some k) → ks[j]? = some (some k) →
      (specAssignIndices n m ks)[i]? = (specAssignIndices n m ks)[j]? := by
  induction ks with
  | nil =>
    intro n m i j k hi hj
    simp at hi
  | cons kh ks' ih =>
    intro n m i j k hi hj
    cases i with
    | zero =>
      cases j with
      | zero => rfl
      | succ j' =>
        simp only [List.getElem?_cons_zero, Option.some.injEq] at hi
        subst hi
        simp only [List.getElem?_cons_succ] at hj
        exact spec_head_eq ks' n m k j' hj
    | succ i' =>
      cases j with
      | zero =>
        simp only [List.getElem?_cons_zero, Option.some.injEq] at hj
        subst hj
        simp only [List.getElem?_cons_succ] at hi
        exact (spec_head_eq ks' n m k i' hi).symm
      | succ j' =>
        simp only [List.getElem?_cons_succ] at hi hj
        cases kh with
        | none =>
          simp only [specAssignIndices, List.getElem?_cons_succ]
          exact ih (n + 1) m i' j' k hi hj
        | some k₁ =>
          cases hl : getAssignedNat m k₁ with
          | some v₁ =>
            simp only [specAssignIndices, hl, List.getElem?_cons_succ]
            exact ih n m i' j' k hi hj
          | none =>
            simp only [specAssignIndices, hl, List.getElem?_cons_succ]
            exact ih (n + 1) (m ++ [(k₁, n)]) i' j' k hi hj

theorem spec_head_ne (ks' : List (Option String)) (n : Nat) (m : List (String × Nat))
    (kh : Option String) (hwf : SpecWF n m) (j' : Nat)
    (hdist : kh = none ∨ ks'[j']? = some none ∨ ks'[j']? ≠ some kh) :
    (specAssignIndices n m (kh :: ks'))[0]? ≠ (specAssignIndices n m (kh :: ks'))[j' + 1]? := by
  cases kh with
  | none =>
    simp only [specAssignIndices, List.getElem?_cons_zero, List.getElem?_cons_succ]
    intro hcontra
    exact spec_ne_value ks' (n + 1) m n (fun p hp => Nat.ne_of_lt (hwf.1 p hp))
      (Nat.lt_succ_self n) j' hcontra.symm
  | some k =>
    cases hx : ks'[j']? with
    | none =>
      have hlen : ks'.length ≤ j' := by
        by_contra hlt
        push_neg at hlt
        rw [List.getElem?_eq_getElem hlt] at hx
        cases hx
      have hr : (specAssignIndices n m (some k :: ks'))[j' + 1]? = none := by
        refine List.getElem?_eq_none ?_
        rw [spec_length (some k :: ks') n m]
        simp only [List.length_cons]
        omega
      rw [hr]
      cases hl : getAssignedNat m k with
      | some v₀ => simp [specAssignIndices, hl]
      | none => simp [specAssignIndices, hl]
    | some x =>
      have hcond : ks'[j']? = some none ∨ ∃ k', ks'[j']? = some (some k') ∧ k' ≠ k := by
        cases x with
        | none => exact Or.inl hx
        | some k'' =>
          refine Or.inr ⟨k'', hx, ?_⟩
          intro hkk
          subst hkk
          rcases hdist with hd | hd | hd
          · cases hd
          · rw [hx] at hd
            simp at hd
          · exact hd hx
      cases hl : getAssignedNat m k with
      | some v₀ =>
        simp only [specAssignIndices, hl, List.getElem?_cons_zero, List.getElem?_cons_succ]
        intro hcontra
        exact spec_avoid_value ks' n m v₀ k
          (nodup_values_unique m hwf.2.2 k v₀ (getAssignedNat_mem m k v₀ hl))
          (hwf.1 _ (getAssignedNat_mem m k v₀ hl)) j' hcond hcontra.symm
      | none =>
        simp only [specAssignIndices, hl, List.getElem?_cons_zero, List.getElem?_cons_succ]
        intro hcontra
        refine spec_avoid_value ks' (n + 1) (m ++ [(k, n)]) n k ?_ (Nat.lt_succ_self n)
          j' hcond hcontra.symm
        intro p hp hpv
        rcases List.mem_append.mp hp with hp | hp
        · exact absurd hpv (Nat.ne_of_lt (hwf.1 p hp))
        · simp only [List.mem_singleton] at hp
          subst hp
          rfl

theorem spec_distinct (ks : List (Option String)) :
    ∀ (n : Nat) (m : List (String × Nat)), SpecWF n m → ∀ (i j : Nat), i ≠ j →
      (ks[i]? = some none ∨ ks[j]? = some none ∨ ks[i]? ≠ ks[j]?) →
      i < ks.length → j < ks.length →
      (specAssignIndices n m ks)[i]? ≠ (specAssignIndices n m ks)[j]? := by
  induction ks with
  | nil =>
    intro n m hwf i j hij hdist hi hj
    simp at hi
  | cons kh ks' ih =>
    intro n m hwf i j hij hdist hi hj
    cases i with
    | zero =>
      cases j with
      | zero => exact absurd rfl hij
      | succ j' =>
        refine spec_head_ne ks' n m kh hwf j' ?_
        rcases hdist with hd | hd | hd
        · simp only [List.getElem?_cons_zero, Option.some.injEq] at hd
          exact Or.inl hd
        · simp only [List.getElem?_cons_succ] at hd
          exact Or.inr (Or.inl hd)
        · simp only [List.getElem?_cons_zero, List.getElem?_cons_succ] at hd
          right; right
          intro hcontra
          exact hd (by rw [hcontra])
    | succ i' =>
      cases j with
      | zero =>
        refine (spec_head_ne ks' n m kh hwf i' ?_).symm
        rcases hdist with hd | hd | hd
        · simp only [List.getElem?_cons_succ] at hd
          exact Or.inr (Or.inl hd)
        · simp only [List.getElem?_cons_zero, Option.some.injEq] at hd
          exact Or.inl hd
        · simp only [List.getElem?_cons_zero, List.getElem?_cons_succ] at hd
          right; right
          intro hcontra
          exact hd (by rw [hcontra])
      | succ j' =>
        simp only [List.length_cons, Nat.succ_lt_succ_iff] at hi hj
        have hij' : i' ≠ j' := fun hh => hij (by rw [hh])
        have hdist' : ks'[i']? = some none ∨ ks'[j']? = some none ∨ ks'[i']? ≠ ks'[j']? := by
          rcases hdist with hd | hd | hd
          · simp only [List.getElem?_cons_succ] at hd
            exact Or.inl hd
          · simp only [List.getElem?_cons_succ] at hd
            exact Or.inr (Or.inl hd)
          · simp only [List.getElem?_cons_succ] at hd
            exact Or.inr (Or.inr hd)
        cases kh with
        | none =>
          simp only [specAssignIndices, List.getElem?_cons_succ]
          exact ih (n + 1) m (spec_wf_bump n m hwf) i' j' hij' hdist' hi hj
        | some k₁ =>
          cases hl : getAssignedNat m k₁ with
          | some v₁ =>
            simp only [specAssignIndices, hl, List.getElem?_cons_succ]
            exact ih n m hwf i' j' hij' hdist' hi hj
          | none =>
            simp only [specAssignIndices, hl, List.getElem?_cons_succ]
            exact ih (n + 1) (m ++ [(k₁, n)]) (spec_wf_extend n m k₁ hwf hl) i' j'
              hij' hdist' hi hj

theorem getAssigned_map_cast (m : List (String × Nat)) (k : String) :
    getAssigned (m.map (fun p => (p.1, (p.2 : Int)))) k =
      (getAssignedNat m k).map (fun v => (v : Int)) := by
  induction m with
  | nil => rfl
  | cons p rest ih =>
    obtain ⟨k', v'⟩ := p
    simp only [List.map_cons, getAssigned, getAssignedNat]
    by_cases hk : k' = k
    · simp [hk]
    · simp only [if_neg hk]
      exact ih

theorem setAssigned_map_fresh (m : List (String × Nat)) (k : String) (n : Nat)
    (h : getAssignedNat m k = none) :
    setAssigned (m.map (fun p => (p.1, (p.2 : Int)))) k (n : Int) =
      (m ++ [(k, n)]).map (fun p => (p.1, (p.2 : Int))) := by
  induction m with
  | nil => rfl
  | cons p rest ih =>
    obtain ⟨k', v'⟩ := p
    simp only [getAssignedNat] at h
    by_cases hk : k' = k
    · simp [hk] at h
    · rw [if_neg hk] at h
      simp only [List.map_cons, setAssigned, List.cons_append, if_neg hk]
      rw [ih h]

theorem tracker_refines_spec (frags : List (List (String × Json))) :
    ∀ (st : ChoiceIndexState) (n : Nat) (m : List (String × Nat)),
      st.nextIndex = (n : Int) →
      st.assigned = m.map (fun p => (p.1, (p.2 : Int))) →
      (∀ fs ∈ frags, getField fs "index" = none) →
      (processCalls st frags).2.map (fun fs => getField fs "index") =
        (specAssignIndices n m (frags.map (fun fs => getToolCallKey (.obj fs)))).map
          (fun v : Nat => some (Json.num (v : Int))) := by
  induction frags with
  | nil =>
    intro st n m hn hm hidx
    rfl
  | cons fs rest ih =>
    intro st n m hn hm hidx
    have hfs : getField fs "index" = none := hidx fs (List.mem_cons_self fs rest)
    have hrest : ∀ fs' ∈ rest, getField fs' "index" = none :=
      fun fs' h => hidx fs' (List.mem_cons_of_mem fs h)
    cases hkey : getToolCallKey (.obj fs) with
    | none =>
      have hens : ensureToolCallIndex st fs =
          ({ st with nextIndex := st.nextIndex + 1 },
           setField fs "index" (.num st.nextIndex), true) := by
        simp [ensureToolCallIndex, hfs, hkey]
      simp only [processCalls, hens, List.map_cons, specAssignIndices, hkey, List.cons.injEq]
      refine ⟨?_, ?_⟩
      · rw [getField_setField_self, hn]
      · exact ih { st with nextIndex := st.nextIndex + 1 } (n + 1) m
          (by simp [hn]) hm hrest
    | some k =>
      cases hl : getAssignedNat m k with
      | some v =>
        have hga : getAssigned st.assigned k = some (v : Int) := by
          rw [hm, getAssigned_map_cast, hl]
          rfl
        have hens : ensureToolCallIndex st fs =
            (st, setField fs "index" (.num (v : Int)), true) := by
          simp [ensureToolCallIndex, hfs, hkey, hga]
        simp only [processCalls, hens, List.map_cons, specAssignIndices, hkey, hl,
          List.cons.injEq]
        refine ⟨?_, ?_⟩
        · rw [getField_setField_self]
        · exact ih st n m hn hm hrest
      | none =>
        have hga : getAssigned st.assigned k = none := by
          rw [hm, getAssigned_map_cast, hl]
          rfl
        have hens : ensureToolCallIndex st fs =
            ({ nextIndex := st.nextIndex + 1,
               assigned := setAssigned st.assigned k st.nextIndex },
             setField fs "index" (.num st.nextIndex), true) := by
          simp [ensureToolCallIndex, hfs, hkey, hga]
        simp only [processCalls, hens, List.map_cons, specAssignIndices, hkey, hl,
          List.cons.injEq]
        refine ⟨?_, ?_⟩
        · rw [getField_setField_self, hn]
        · refine ih _ (n + 1) (m ++ [(k, n)]) ?_ ?_ hrest
          · simp [hn]
          · simp only [hn, hm]
            exact setAssigned_map_fresh m k n hl

/-- C1 counterexample: two fragments with the same `id: "a"` but upstream-supplied
indices `0` and `1`.  The tracker keeps the upstream indices, so the same logical tool
call ends up with two different indices within one choice of one stream — the claim's
unconditional same-index clause is false when the upstream supplies (conflicting)
indices. -/
theorem c1_counterexample :
    getToolCallKey (.obj [("id", Json.str "a"), ("index", Json.num 0)]) =
      getToolCallKey (.obj [("id", Json.str "a"), ("index", Json.num 1)]) ∧
    (processCalls initialChoiceState
      [[("id", Json.str "a"), ("index", Json.num 0)],
       [("id", Json.str "a"), ("index", Json.num 1)]]).2.map
        (fun fs => getField fs "index") =
      [some (Json.num 0), some (Json.num 1)] :=
  ⟨rfl, rfl⟩

/-- C1 (amended): when the upstream supplies no indices at all, the tracker realizes
exactly the reference first-seen dense assignment: fragments with the same key (same
non-empty `id`, else the same non-empty `function.name`) receive the same index,
distinct logical calls (different keys, or keyless fragments, which are always new)
receive distinct indices, and indices are dense — `0, 1, 2, …` in first-seen order. -/
theorem c1_amended_index_assignment (frags : List (List (String × Json)))
    (ks : List (Option String))
    (hks : ks = frags.map (fun fs => getToolCallKey (.obj fs)))
    (h : ∀ fs ∈ frags, getField fs "index" = none) :
    ((processCalls initialChoiceState frags).2.map (fun fs => getField fs "index") =
      (specAssignIndices 0 [] ks).map (fun v : Nat => some (Json.num (v : Int)))) ∧
    (∀ (i j : Nat) (k : String), ks[i]? = some (some k) → ks[j]? = some (some k) →
      (specAssignIndices 0 [] ks)[i]? = (specAssignIndices 0 [] ks)[j]?) ∧
    (∀ (i j : Nat), i ≠ j →
      (ks[i]? = some none ∨ ks[j]? = some none ∨ ks[i]? ≠ ks[j]?) →
      i < ks.length → j < ks.length →
      (specAssignIndices 0 [] ks)[i]? ≠ (specAssignIndices 0 [] ks)[j]?) := by
  subst hks
  exact ⟨tracker_refines_spec frags initialChoiceState 0 [] rfl rfl h,
    fun i j k => spec_same_key _ 0 [] i j k,
    fun i j hij hdist hi hj =>
      spec_distinct _ 0 [] ⟨by simp, by simp, by simp⟩ i j hij hdist hi hj⟩

/-- Witness for C1 on three fragments: id `a`, function name `f`, id `a` again. -/
theorem c1_witness :
    (processCalls initialChoiceState
      [[("id", Json.str "a")], [("function", Json.obj [("name", Json.str "f")])],
       [("id", Json.str "a")]]).2.map (fun fs => getField fs "index") =
      (specAssignIndices 0 [] [some "a", some "fn:f", some "a"]).map
        (fun v : Nat => some (Json.num (v : Int))) :=
  (c1_amended_index_assignment
    [[("id", Json.str "a")], [("function", Json.obj [("name", Json.str "f")])],
     [("id", Json.str "a")]]
    [some "a", some "fn:f", some "a"] rfl
    (by
      intro fs hfs
      rcases List.mem_cons.mp hfs with rfl | hfs
      · rfl
      rcases List.mem_cons.mp hfs with rfl | hfs
      · rfl
      rcases List.mem_cons.mp hfs with rfl | hfs
      · rfl
      · simp at hfs)).1

-- ===========================================================================
-- C3 — schema-transform idempotence
-- ===========================================================================

/-- C3 counterexample: `{const: {const: 5}}` under the default configuration.  The
transform output merges `enum: [v]` with the original value `v` verbatim, so a second
application transforms the inner `const` that the first left alone. -/
theorem c3_counterexample :
    transformJsonSchema defaultSchemaCfg (.obj [("const", .obj [("const", .num 5)])]) =
      some (.obj [("enum", .arr [.obj [("const", .num 5)]])]) ∧
    transformJsonSchema defaultSchemaCfg (.obj [("enum", .arr [.obj [("const", .num 5)]])]) =
      some (.obj [("enum", .arr [.obj [("enum", .arr [.num 5])]])]) ∧
    Json.obj [("enum", .arr [.obj [("enum", .arr [.num 5])]])] ≠
      Json.obj [("enum", .arr [.obj [("const", .num 5)]])] := by
  refine ⟨rfl, rfl, ?_⟩
  intro h
  exact absurd (congrArg (hasKeyDeep "const") h) (by decide)
theorem setField_mem (l : List (String × Json)) (k : String) (x : Json)
    (p : String × Json) (hp : p ∈ setField l k x) : p ∈ l ∨ p = (k, x) := by
  induction l with
  | nil => simpa [setField] using hp
  | cons q rest ih =>
    obtain ⟨k', v'⟩ := q
    simp only [setField] at hp
    by_cases hk : k' = k
    · rw [if_pos hk] at hp
      rcases List.mem_cons.mp hp with rfl | hp
      · exact Or.inr (by rw [hk])
      · exact Or.inl (List.mem_cons_of_mem _ hp)
    · rw [if_neg hk] at hp
      rcases List.mem_cons.mp hp with rfl | hp
      · exact Or.inl (List.mem_cons_self _ _)
      · rcases ih hp with h | h
        · exact Or.inl (List.mem_cons_of_mem _ h)
        · exact Or.inr h

theorem keys_setField (l : List (String × Json)) (k : String) (x : Json) (a : String)
    (ha : a ∈ (setField l k x).map Prod.fst) : a ∈ l.map Prod.fst ∨ a = k := by
  obtain ⟨p, hp, hpa⟩ := List.mem_map.mp ha
  rcases setField_mem l k x p hp with h | h
  · exact Or.inl (hpa ▸ List.mem_map_of_mem Prod.fst h)
  · subst h
    exact Or.inr hpa.symm

theorem nodup_keys_setField (l : List (String × Json)) (k : String) (x : Json)
    (h : (l.map Prod.fst).Nodup) : ((setField l k x).map Prod.fst).Nodup := by
  induction l with
  | nil => simp [setField]
  | cons q rest ih =>
    obtain ⟨k', v'⟩ := q
    simp only [List.map_cons, List.nodup_cons] at h
    by_cases hk : k' = k
    · simp only [setField, if_pos hk, List.map_cons, List.nodup_cons]
      exact ⟨h.1, h.2⟩
    · simp only [setField, if_neg hk, List.map_cons, List.nodup_cons]
      refine ⟨?_, ih h.2⟩
      intro hmem
      rcases keys_setField rest k x k' hmem with hh | hh
      · exact h.1 hh
      · exact hk hh

theorem setField_append_of_not_mem (l : List (String × Json)) (k : String) (x : Json)
    (h : k ∉ l.map Prod.fst) : setField l k x = l ++ [(k, x)] := by
  induction l with
  | nil => rfl
  | cons q rest ih =>
    obtain ⟨k', v'⟩ := q
    simp only [List.map_cons, List.mem_cons, not_or] at h
    simp only [setField, if_neg (fun hh : k' = k => h.1 hh.symm), List.cons_append]
    rw [ih h.2]

theorem setField_self_mem (l : List (String × Json)) (k : String) (x : Json) :
    (k, x) ∈ setField l k x := by
  induction l with
  | nil => simp [setField]
  | cons q rest ih =>
    obtain ⟨k', v'⟩ := q
    by_cases hk : k' = k
    · subst hk
      simp [setField]
    · simp only [setField, if_neg hk]
      exact List.mem_cons_of_mem _ ih

theorem setField_mem_preserve (l : List (String × Json)) (k k₀ : String) (x y : Json)
    (hne : k ≠ k₀) (hmem : (k₀, y) ∈ l) : (k₀, y) ∈ setField l k x := by
  induction l with
  | nil => simp at hmem
  | cons q rest ih =>
    obtain ⟨k', v'⟩ := q
    by_cases hk : k' = k
    · subst hk
      simp only [setField, if_pos rfl]
      rcases List.mem_cons.mp hmem with heq | hmem
      · cases heq
        exact absurd rfl hne
      · exact List.mem_cons_of_mem _ hmem
    · simp only [setField, if_neg hk]
      rcases List.mem_cons.mp hmem with heq | hmem
      · exact heq ▸ List.mem_cons_self _ _
      · exact List.mem_cons_of_mem _ (ih hmem)

theorem lookup_default_none (k : String) (hk : k ≠ "const") :
    defaultSchemaCfg.keywordTransforms.lookup k = none := by
  have hbk : (k == "const") = false := beq_eq_false_iff_ne.mpr hk
  simp [defaultSchemaCfg, List.lookup, hbk]

theorem cleanFields_mem :
    ∀ fs : List (String × Json), constValuesCleanFields fs = true →
      ∀ p ∈ fs, (p.1 = "const" → hasKeyDeep "const" p.2 = false) ∧
        (p.1 ≠ "const" → constValuesClean p.2 = true) := by
  intro fs
  induction fs with
  | nil =>
    intro _ p hp
    simp at hp
  | cons q rest ih =>
    intro h p hp
    obtain ⟨k, v⟩ := q
    simp only [constValuesCleanFields, Bool.and_eq_true] at h
    rcases List.mem_cons.mp hp with heq | hp
    · subst heq
      by_cases hk : k = "const"
      · rw [if_pos hk] at h
        refine ⟨fun _ => ?_, fun hne => absurd hk hne⟩
        simpa using h.1
      · rw [if_neg hk] at h
        exact ⟨fun hh => absurd hh hk, fun _ => h.1⟩
    · exact ih h.2 p hp

theorem cleanList_mem :
    ∀ xs : List Json, constValuesCleanList xs = true →
      ∀ x ∈ xs, constValuesClean x = true := by
  intro xs
  induction xs with
  | nil =>
    intro _ x hx
    simp at hx
  | cons y rest ih =>
    intro h x hx
    simp only [constValuesCleanList, Bool.and_eq_true] at h
    rcases List.mem_cons.mp hx with heq | hx
    · exact heq ▸ h.1
    · exact ih h.2 x hx

theorem hasKeyDeepList_false (needle : String) :
    ∀ xs : List Json, (∀ x ∈ xs, hasKeyDeep needle x = false) →
      hasKeyDeepList needle xs = false := by
  intro xs
  induction xs with
  | nil => intro _; rfl
  | cons y rest ih =>
    intro h
    simp only [hasKeyDeepList, Bool.or_eq_false_iff]
    exact ⟨h y (List.mem_cons_self _ _), ih fun x hx => h x (List.mem_cons_of_mem _ hx)⟩

theorem hasKeyDeepFields_false (needle : String) :
    ∀ gs : List (String × Json),
      (∀ p ∈ gs, p.1 ≠ needle ∧ hasKeyDeep needle p.2 = false) →
      hasKeyDeepFields needle gs = false := by
  intro gs
  induction gs with
  | nil => intro _; rfl
  | cons q rest ih =>
    intro h
    obtain ⟨k, v⟩ := q
    have hq := h (k, v) (List.mem_cons_self _ _)
    simp only [hasKeyDeepFields, Bool.or_eq_false_iff]
    exact ⟨⟨beq_eq_false_iff_ne.mpr hq.1, hq.2⟩,
      ih fun p hp => h p (List.mem_cons_of_mem _ hp)⟩

theorem protoFreeFields_mem :
    ∀ fs : List (String × Json), protoFreeFields fs = true →
      ∀ p ∈ fs, p.1 ∉ protoPropNames ∧ protoFree p.2 = true := by
  intro fs
  induction fs with
  | nil =>
    intro _ p hp
    simp at hp
  | cons q rest ih =>
    intro h p hp
    obtain ⟨k, v⟩ := q
    by_cases hk : k ∈ protoPropNames
    · simp only [protoFreeFields, if_pos hk] at h
      exact (Bool.false_ne_true h).elim
    · simp only [protoFreeFields, if_neg hk, Bool.and_eq_true] at h
      rcases List.mem_cons.mp hp with rfl | hp
      · exact ⟨hk, h.1⟩
      · exact ih h.2 p hp

theorem protoFreeList_mem :
    ∀ xs : List Json, protoFreeList xs = true → ∀ x ∈ xs, protoFree x = true := by
  intro xs
  induction xs with
  | nil =>
    intro _ x hx
    simp at hx
  | cons y rest ih =>
    intro h x hx
    simp only [protoFreeList, Bool.and_eq_true] at h
    rcases List.mem_cons.mp hx with rfl | hx
    · exact h.1
    · exact ih h.2 x hx

theorem tlist_total (cfg : SchemaCfg) :
    ∀ xs : List Json, (∀ x ∈ xs, ∃ w, transformJsonSchema cfg x = some w) →
      ∃ ys, transformJsonList cfg xs = some ys := by
  intro xs
  induction xs with
  | nil =>
    intro _
    exact ⟨[], rfl⟩
  | cons x rest ih =>
    intro h
    obtain ⟨w, hw⟩ := h x (List.mem_cons_self _ _)
    obtain ⟨ys, hys⟩ := ih fun y hy => h y (List.mem_cons_of_mem _ hy)
    exact ⟨w :: ys, by simp only [transformJsonList, hw, hys]⟩

theorem tfields_total (cfg : SchemaCfg) :
    ∀ (fs acc : List (String × Json)),
      (∀ q ∈ fs, ∃ w, transformJsonSchema cfg (q : String × Json).2 = some w) →
      (∀ q ∈ fs, (q : String × Json).1 ∉ protoPropNames) →
      ∃ out, transformJsonFields cfg fs acc = some out := by
  intro fs
  induction fs with
  | nil =>
    intro acc _ _
    exact ⟨acc, rfl⟩
  | cons q rest ih =>
    intro acc hval hkey
    obtain ⟨k, v⟩ := q
    have hkp : k ∉ protoPropNames := hkey (k, v) (List.mem_cons_self _ _)
    have hktail : ∀ q ∈ rest, (q : String × Json).1 ∉ protoPropNames :=
      fun q hq => hkey q (List.mem_cons_of_mem _ hq)
    have hvtail : ∀ q ∈ rest, ∃ w, transformJsonSchema cfg (q : String × Json).2 = some w :=
      fun q hq => hval q (List.mem_cons_of_mem _ hq)
    have hvhead : ∃ w, transformJsonSchema cfg v = some w :=
      hval (k, v) (List.mem_cons_self _ _)
    clear hval hkey
    by_cases hrm : k ∈ cfg.keywordsToRemove
    · obtain ⟨out, hout⟩ := ih acc hvtail hktail
      refine ⟨out, ?_⟩
      simp only [transformJsonFields, if_pos hrm]
      exact hout
    · cases hlk : cfg.keywordTransforms.lookup k with
      | some f =>
        obtain ⟨out, hout⟩ := ih (assignAll acc (f v)) hvtail hktail
        refine ⟨out, ?_⟩
        simp only [transformJsonFields, if_neg hrm, hlk]
        exact hout
      | none =>
        obtain ⟨w, hw⟩ := hvhead
        cases v with
        | arr xs =>
          obtain ⟨out, hout⟩ := ih (setField acc k w) hvtail hktail
          refine ⟨out, ?_⟩
          simp only [transformJsonFields, if_neg hrm, hlk, if_neg hkp, hw]
          exact hout
        | obj gs =>
          obtain ⟨out, hout⟩ := ih (setField acc k w) hvtail hktail
          refine ⟨out, ?_⟩
          simp only [transformJsonFields, if_neg hrm, hlk, if_neg hkp, hw]
          exact hout
        | null =>
          obtain ⟨out, hout⟩ := ih (setField acc k .null) hvtail hktail
          refine ⟨out, ?_⟩
          simp only [transformJsonFields, if_neg hrm, hlk, if_neg hkp]
          exact hout
        | bool b =>
          obtain ⟨out, hout⟩ := ih (setField acc k (.bool b)) hvtail hktail
          refine ⟨out, ?_⟩
          simp only [transformJsonFields, if_neg hrm, hlk, if_neg hkp]
          exact hout
        | num n =>
          obtain ⟨out, hout⟩ := ih (setField acc k (.num n)) hvtail hktail
          refine ⟨out, ?_⟩
          simp only [transformJsonFields, if_neg hrm, hlk, if_neg hkp]
          exact hout
        | str s1 =>
          obtain ⟨out, hout⟩ := ih (setField acc k (.str s1)) hvtail hktail
          refine ⟨out, ?_⟩
          simp only [transformJsonFields, if_neg hrm, hlk, if_neg hkp]
          exact hout

theorem transform_total (cfg : SchemaCfg) :
    ∀ s : Json, protoFree s = true → ∃ t, transformJsonSchema cfg s = some t := by
  have main : ∀ (N : Nat) (u : Json), sizeOf u ≤ N → protoFree u = true →
      ∃ t, transformJsonSchema cfg u = some t := by
    intro N
    induction N with
    | zero =>
      intro u hu _
      exfalso
      cases u <;> simp at hu
    | succ N ihN =>
      intro u hu hp
      cases u with
      | null => exact ⟨.null, rfl⟩
      | bool b => exact ⟨.bool b, rfl⟩
      | num n => exact ⟨.num n, rfl⟩
      | str s1 => exact ⟨.str s1, rfl⟩
      | arr xs =>
        simp only [protoFree] at hp
        have hval : ∀ x ∈ xs, ∃ w, transformJsonSchema cfg x = some w := by
          intro x hx
          refine ihN x ?_ (protoFreeList_mem xs hp x hx)
          have h1 : sizeOf x < sizeOf xs := List.sizeOf_lt_of_mem hx
          have h2 : sizeOf (Json.arr xs) = 1 + sizeOf xs := by simp
          omega
        obtain ⟨ys, hys⟩ := tlist_total cfg xs hval
        exact ⟨.arr ys, by simp only [transformJsonSchema, hys]⟩
      | obj fs =>
        simp only [protoFree] at hp
        have hsz : ∀ q ∈ fs, sizeOf (q : String × Json).2 ≤ N := by
          intro q hq
          have h1 : sizeOf q < sizeOf fs := List.sizeOf_lt_of_mem hq
          have h2 : sizeOf q.2 < sizeOf q := by
            obtain ⟨a, b⟩ := q
            simp
          have h3 : sizeOf (Json.obj fs) = 1 + sizeOf fs := by simp
          omega
        have hval : ∀ q ∈ fs, ∃ w, transformJsonSchema cfg (q : String × Json).2 = some w :=
          fun q hq => ihN q.2 (hsz q hq) ((protoFreeFields_mem fs hp q hq).2)
        have hkey : ∀ q ∈ fs, (q : String × Json).1 ∉ protoPropNames :=
          fun q hq => (protoFreeFields_mem fs hp q hq).1
        obtain ⟨out, hout⟩ := tfields_total cfg fs [] hval hkey
        exact ⟨.obj out, by simp only [transformJsonSchema, hout]⟩
  exact fun s hs => main (sizeOf s) s le_rfl hs

theorem tlist_mem (cfg : SchemaCfg) :
    ∀ (xs ys : List Json), transformJsonList cfg xs = some ys →
      ∀ y ∈ ys, ∃ x ∈ xs, transformJsonSchema cfg x = some y := by
  intro xs
  induction xs with
  | nil =>
    intro ys hys y hy
    simp only [transformJsonList, Option.some.injEq] at hys
    subst hys
    simp at hy
  | cons x rest ih =>
    intro ys hys y hy
    cases hx : transformJsonSchema cfg x with
    | none =>
      simp only [transformJsonList, hx] at hys
      exact Option.noConfusion hys
    | some w =>
      cases hr : transformJsonList cfg rest with
      | none =>
        simp only [transformJsonList, hx, hr] at hys
        exact Option.noConfusion hys
      | some ws =>
        simp only [transformJsonList, hx, hr, Option.some.injEq] at hys
        subst hys
        rcases List.mem_cons.mp hy with rfl | hy
        · exact ⟨x, List.mem_cons_self _ _, hx⟩
        · obtain ⟨x2, hx2, hx2t⟩ := ih ws hr y hy
          exact ⟨x2, List.mem_cons_of_mem _ hx2, hx2t⟩

theorem tfields_mem (cfg : SchemaCfg) (hcfg : cfg.keywordTransforms = []) :
    ∀ (fs acc out : List (String × Json)),
      transformJsonFields cfg fs acc = some out →
      (∀ q ∈ fs, (q : String × Json).1 ∉ protoPropNames) →
      ∀ p ∈ out, p ∈ acc ∨ ∃ q ∈ fs, q.1 ∉ cfg.keywordsToRemove ∧
        p.1 = q.1 ∧ transformJsonSchema cfg q.2 = some p.2 := by
  intro fs
  induction fs with
  | nil =>
    intro acc out hout _ p hp
    simp only [transformJsonFields, Option.some.injEq] at hout
    subst hout
    exact Or.inl hp
  | cons q rest ih =>
    intro acc out hout hkeys p hp
    obtain ⟨k, v⟩ := q
    have hkp : k ∉ protoPropNames := hkeys (k, v) (List.mem_cons_self _ _)
    have hktail : ∀ q ∈ rest, (q : String × Json).1 ∉ protoPropNames :=
      fun q hq => hkeys q (List.mem_cons_of_mem _ hq)
    clear hkeys
    have hlk : cfg.keywordTransforms.lookup k = none := by simp [hcfg]
    have lift : (∃ q2 ∈ rest, q2.1 ∉ cfg.keywordsToRemove ∧ p.1 = q2.1 ∧
        transformJsonSchema cfg q2.2 = some p.2) →
        ∃ q2 ∈ (k, v) :: rest, q2.1 ∉ cfg.keywordsToRemove ∧ p.1 = q2.1 ∧
          transformJsonSchema cfg q2.2 = some p.2 := by
      rintro ⟨q2, hq2, h1, h2, h3⟩
      exact ⟨q2, List.mem_cons_of_mem _ hq2, h1, h2, h3⟩
    by_cases hrm : k ∈ cfg.keywordsToRemove
    · simp only [transformJsonFields, if_pos hrm] at hout
      rcases ih acc out hout hktail p hp with h | h
      · exact Or.inl h
      · exact Or.inr (lift h)
    · cases v with
      | arr xs =>
        simp only [transformJsonFields, if_neg hrm, hlk, if_neg hkp] at hout
        cases hw : transformJsonSchema cfg (.arr xs) with
        | none =>
          simp only [hw] at hout
          exact Option.noConfusion hout
        | some w =>
          simp only [hw] at hout
          rcases ih (setField acc k w) out hout hktail p hp with h | h
          · rcases setField_mem acc k w p h with h2 | h2
            · exact Or.inl h2
            · exact Or.inr ⟨(k, .arr xs), List.mem_cons_self _ _, hrm,
                by rw [h2], by rw [h2]; exact hw⟩
          · exact Or.inr (lift h)
      | obj gs =>
        simp only [transformJsonFields, if_neg hrm, hlk, if_neg hkp] at hout
        cases hw : transformJsonSchema cfg (.obj gs) with
        | none =>
          simp only [hw] at hout
          exact Option.noConfusion hout
        | some w =>
          simp only [hw] at hout
          rcases ih (setField acc k w) out hout hktail p hp with h | h
          · rcases setField_mem acc k w p h with h2 | h2
            · exact Or.inl h2
            · exact Or.inr ⟨(k, .obj gs), List.mem_cons_self _ _, hrm,
                by rw [h2], by rw [h2]; exact hw⟩
          · exact Or.inr (lift h)
      | null =>
        simp only [transformJsonFields, if_neg hrm, hlk, if_neg hkp] at hout
        rcases ih (setField acc k .null) out hout hktail p hp with h | h
        · rcases setField_mem acc k .null p h with h2 | h2
          · exact Or.inl h2
          · exact Or.inr ⟨(k, .null), List.mem_cons_self _ _, hrm, by rw [h2], by rw [h2]; rfl⟩
        · exact Or.inr (lift h)
      | bool b =>
        simp only [transformJsonFields, if_neg hrm, hlk, if_neg hkp] at hout
        rcases ih (setField acc k (.bool b)) out hout hktail p hp with h | h
        · rcases setField_mem acc k (.bool b) p h with h2 | h2
          · exact Or.inl h2
          · exact Or.inr ⟨(k, .bool b), List.mem_cons_self _ _, hrm, by rw [h2], by rw [h2]; rfl⟩
        · exact Or.inr (lift h)
      | num n =>
        simp only [transformJsonFields, if_neg hrm, hlk, if_neg hkp] at hout
        rcases ih (setField acc k (.num n)) out hout hktail p hp with h | h
        · rcases setField_mem acc k (.num n) p h with h2 | h2
          · exact Or.inl h2
          · exact Or.inr ⟨(k, .num n), List.mem_cons_self _ _, hrm, by rw [h2], by rw [h2]; rfl⟩
        · exact Or.inr (lift h)
      | str s1 =>
        simp only [transformJsonFields, if_neg hrm, hlk, if_neg hkp] at hout
        rcases ih (setField acc k (.str s1)) out hout hktail p hp with h | h
        · rcases setField_mem acc k (.str s1) p h with h2 | h2
          · exact Or.inl h2
          · exact Or.inr ⟨(k, .str s1), List.mem_cons_self _ _, hrm, by rw [h2], by rw [h2]; rfl⟩
        · exact Or.inr (lift h)

theorem tfields_keys_nodup (cfg : SchemaCfg) (hcfg : cfg.keywordTransforms = []) :
    ∀ (fs acc out : List (String × Json)),
      transformJsonFields cfg fs acc = some out →
      (∀ q ∈ fs, (q : String × Json).1 ∉ protoPropNames) →
      (acc.map Prod.fst).Nodup → (out.map Prod.fst).Nodup := by
  intro fs
  induction fs with
  | nil =>
    intro acc out hout _ hacc
    simp only [transformJsonFields, Option.some.injEq] at hout
    subst hout
    exact hacc
  | cons q rest ih =>
    intro acc out hout hkeys hacc
    obtain ⟨k, v⟩ := q
    have hkp : k ∉ protoPropNames := hkeys (k, v) (List.mem_cons_self _ _)
    have hktail : ∀ q ∈ rest, (q : String × Json).1 ∉ protoPropNames :=
      fun q hq => hkeys q (List.mem_cons_of_mem _ hq)
    clear hkeys
    have hlk : cfg.keywordTransforms.lookup k = none := by simp [hcfg]
    by_cases hrm : k ∈ cfg.keywordsToRemove
    · simp only [transformJsonFields, if_pos hrm] at hout
      exact ih acc out hout hktail hacc
    · cases v with
      | arr xs =>
        simp only [transformJsonFields, if_neg hrm, hlk, if_neg hkp] at hout
        cases hw : transformJsonSchema cfg (.arr xs) with
        | none =>
          simp only [hw] at hout
          exact Option.noConfusion hout
        | some w =>
          simp only [hw] at hout
          exact ih _ out hout hktail (nodup_keys_setField acc k w hacc)
      | obj gs =>
        simp only [transformJsonFields, if_neg hrm, hlk, if_neg hkp] at hout
        cases hw : transformJsonSchema cfg (.obj gs) with
        | none =>
          simp only [hw] at hout
          exact Option.noConfusion hout
        | some w =>
          simp only [hw] at hout
          exact ih _ out hout hktail (nodup_keys_setField acc k w hacc)
      | null =>
        simp only [transformJsonFields, if_neg hrm, hlk, if_neg hkp] at hout
        exact ih _ out hout hktail (nodup_keys_setField acc k .null hacc)
      | bool b =>
        simp only [transformJsonFields, if_neg hrm, hlk, if_neg hkp] at hout
        exact ih _ out hout hktail (nodup_keys_setField acc k (.bool b) hacc)
      | num n =>
        simp only [transformJsonFields, if_neg hrm, hlk, if_neg hkp] at hout
        exact ih _ out hout hktail (nodup_keys_setField acc k (.num n) hacc)
      | str s1 =>
        simp only [transformJsonFields, if_neg hrm, hlk, if_neg hkp] at hout
        exact ih _ out hout hktail (nodup_keys_setField acc k (.str s1) hacc)

theorem tfields_fixpoint (cfg : SchemaCfg) (hcfg : cfg.keywordTransforms = []) :
    ∀ (gs acc : List (String × Json)),
      (∀ q ∈ gs, (q : String × Json).1 ∉ acc.map Prod.fst) →
      (gs.map Prod.fst).Nodup →
      (∀ q ∈ gs, (q : String × Json).1 ∉ cfg.keywordsToRemove) →
      (∀ q ∈ gs, (q : String × Json).1 ∉ protoPropNames) →
      (∀ q ∈ gs, transformJsonSchema cfg (q : String × Json).2 = some q.2) →
      transformJsonFields cfg gs acc = some (acc ++ gs) := by
  intro gs
  induction gs with
  | nil =>
    intro acc _ _ _ _ _
    simp [transformJsonFields]
  | cons q rest ih =>
    intro acc hdisj hnd hrm hproto hfix
    obtain ⟨k, v⟩ := q
    have hkrm : k ∉ cfg.keywordsToRemove := hrm (k, v) (List.mem_cons_self _ _)
    have hkp : k ∉ protoPropNames := hproto (k, v) (List.mem_cons_self _ _)
    have hka : k ∉ acc.map Prod.fst := hdisj (k, v) (List.mem_cons_self _ _)
    have hfixhead : transformJsonSchema cfg v = some v := hfix (k, v) (List.mem_cons_self _ _)
    have hlk : cfg.keywordTransforms.lookup k = none := by simp [hcfg]
    simp only [List.map_cons, List.nodup_cons] at hnd
    have hset : setField acc k v = acc ++ [(k, v)] := setField_append_of_not_mem acc k v hka
    have hdisj2 : ∀ q ∈ rest, (q : String × Json).1 ∉ (acc ++ [(k, v)]).map Prod.fst := by
      intro q hq
      simp only [List.map_append, List.mem_append, List.map_cons, List.map_nil, not_or]
      refine ⟨hdisj q (List.mem_cons_of_mem _ hq), ?_⟩
      simp only [List.mem_singleton]
      intro heq
      exact hnd.1 (heq ▸ List.mem_map.mpr ⟨q, hq, rfl⟩)
    have hnext : transformJsonFields cfg rest (setField acc k v) =
        some (acc ++ (k, v) :: rest) := by
      rw [hset, ih (acc ++ [(k, v)]) hdisj2 hnd.2
        (fun q hq => hrm q (List.mem_cons_of_mem _ hq))
        (fun q hq => hproto q (List.mem_cons_of_mem _ hq))
        (fun q hq => hfix q (List.mem_cons_of_mem _ hq))]
      simp
    clear hdisj hrm hproto hfix hdisj2 hset hka
    cases v with
    | arr xs =>
      simp only [transformJsonFields, if_neg hkrm, hlk, if_neg hkp, hfixhead]
      exact hnext
    | obj gs2 =>
      simp only [transformJsonFields, if_neg hkrm, hlk, if_neg hkp, hfixhead]
      exact hnext
    | null =>
      simp only [transformJsonFields, if_neg hkrm, hlk, if_neg hkp]
      exact hnext
    | bool b =>
      simp only [transformJsonFields, if_neg hkrm, hlk, if_neg hkp]
      exact hnext
    | num n =>
      simp only [transformJsonFields, if_neg hkrm, hlk, if_neg hkp]
      exact hnext
    | str s1 =>
      simp only [transformJsonFields, if_neg hkrm, hlk, if_neg hkp]
      exact hnext

theorem tlist_idem (cfg : SchemaCfg) :
    ∀ (xs ys : List Json), transformJsonList cfg xs = some ys →
      (∀ x y, x ∈ xs → transformJsonSchema cfg x = some y →
        transformJsonSchema cfg y = some y) →
      transformJsonList cfg ys = some ys := by
  intro xs
  induction xs with
  | nil =>
    intro ys hys _
    simp only [transformJsonList, Option.some.injEq] at hys
    subst hys
    rfl
  | cons x rest ih =>
    intro ys hys hfix
    cases hx : transformJsonSchema cfg x with
    | none =>
      simp only [transformJsonList, hx] at hys
      exact Option.noConfusion hys
    | some w =>
      cases hr : transformJsonList cfg rest with
      | none =>
        simp only [transformJsonList, hx, hr] at hys
        exact Option.noConfusion hys
      | some ws =>
        simp only [transformJsonList, hx, hr, Option.some.injEq] at hys
        subst hys
        have hw : transformJsonSchema cfg w = some w := hfix x w (List.mem_cons_self _ _) hx
        have hws : transformJsonList cfg ws = some ws :=
          ih ws hr fun a b ha hb => hfix a b (List.mem_cons_of_mem _ ha) hb
        simp only [transformJsonList, hw, hws]

/-- C3 (amended): the schema transform is idempotent for every configuration whose
`keywordTransforms` mapping is empty (pure keyword removal), on every schema none of
whose object keys is an `Object.prototype` property name: the first pass succeeds and
its output is a fixed point.  Both provisos are forced: with keyword transforms —
including the default `const → enum` — a transform's output object is merged verbatim
and only re-processed by a second pass (see the counterexample), and a schema key such
as `constructor` takes the inherited-member branch of `key in keywordTransforms`,
merging its value's raw properties without recursion (or throwing). -/
theorem c3_amended_idempotent_without_transforms (cfg : SchemaCfg)
    (hcfg : cfg.keywordTransforms = []) (s : Json) (hs : protoFree s = true) :
    ∃ t, transformJsonSchema cfg s = some t ∧ transformJsonSchema cfg t = some t := by
  have main : ∀ (N : Nat) (u : Json), sizeOf u ≤ N → protoFree u = true →
      ∃ t, transformJsonSchema cfg u = some t ∧ transformJsonSchema cfg t = some t := by
    intro N
    induction N with
    | zero =>
      intro u hu _
      exfalso
      cases u <;> simp at hu
    | succ N ihN =>
      intro u hu hp
      cases u with
      | null => exact ⟨.null, rfl, rfl⟩
      | bool b => exact ⟨.bool b, rfl, rfl⟩
      | num n => exact ⟨.num n, rfl, rfl⟩
      | str s1 => exact ⟨.str s1, rfl, rfl⟩
      | arr xs =>
        simp only [protoFree] at hp
        have hsz : ∀ x ∈ xs, sizeOf x ≤ N := by
          intro x hx
          have h1 : sizeOf x < sizeOf xs := List.sizeOf_lt_of_mem hx
          have h2 : sizeOf (Json.arr xs) = 1 + sizeOf xs := by simp
          omega
        have hval : ∀ x ∈ xs, ∃ w, transformJsonSchema cfg x = some w := by
          intro x hx
          obtain ⟨t, ht, _⟩ := ihN x (hsz x hx) (protoFreeList_mem xs hp x hx)
          exact ⟨t, ht⟩
        obtain ⟨ys, hys⟩ := tlist_total cfg xs hval
        have hidem : transformJsonList cfg ys = some ys := by
          refine tlist_idem cfg xs ys hys ?_
          intro x y hx hxy
          obtain ⟨t, ht, ht2⟩ := ihN x (hsz x hx) (protoFreeList_mem xs hp x hx)
          rw [ht, Option.some.injEq] at hxy
          rw [hxy] at ht2
          exact ht2
        exact ⟨.arr ys, by simp only [transformJsonSchema, hys],
          by simp only [transformJsonSchema, hidem]⟩
      | obj fs =>
        simp only [protoFree] at hp
        have hsz : ∀ q ∈ fs, sizeOf (q : String × Json).2 ≤ N := by
          intro q hq
          have h1 : sizeOf q < sizeOf fs := List.sizeOf_lt_of_mem hq
          have h2 : sizeOf q.2 < sizeOf q := by
            obtain ⟨a, b⟩ := q
            simp
          have h3 : sizeOf (Json.obj fs) = 1 + sizeOf fs := by simp
          omega
        have hval : ∀ q ∈ fs, ∃ w, transformJsonSchema cfg (q : String × Json).2 = some w := by
          intro q hq
          obtain ⟨t, ht, _⟩ := ihN q.2 (hsz q hq) ((protoFreeFields_mem fs hp q hq).2)
          exact ⟨t, ht⟩
        have hkey : ∀ q ∈ fs, (q : String × Json).1 ∉ protoPropNames :=
          fun q hq => (protoFreeFields_mem fs hp q hq).1
        obtain ⟨out, hout⟩ := tfields_total cfg fs [] hval hkey
        have hmem := tfields_mem cfg hcfg fs [] out hout hkey
        have hnd2 : (out.map Prod.fst).Nodup :=
          tfields_keys_nodup cfg hcfg fs [] out hout hkey (by simp)
        have hdisj : ∀ q ∈ out,
            (q : String × Json).1 ∉ (([] : List (String × Json)).map Prod.fst) := by
          simp
        have hrm2 : ∀ q ∈ out, (q : String × Json).1 ∉ cfg.keywordsToRemove := by
          intro q hq
          rcases hmem q hq with h | ⟨q2, hq2, hq2rm, hkeq, hval2⟩
          · simp at h
          · rw [hkeq]
            exact hq2rm
        have hproto2 : ∀ q ∈ out, (q : String × Json).1 ∉ protoPropNames := by
          intro q hq
          rcases hmem q hq with h | ⟨q2, hq2, _, hkeq, _⟩
          · simp at h
          · rw [hkeq]
            exact hkey q2 hq2
        have hfix2 : ∀ q ∈ out, transformJsonSchema cfg (q : String × Json).2 = some q.2 := by
          intro q hq
          rcases hmem q hq with h | ⟨q2, hq2, _, _, hval2⟩
          · simp at h
          · obtain ⟨t, ht, ht2⟩ := ihN q2.2 (hsz q2 hq2) ((protoFreeFields_mem fs hp q2 hq2).2)
            rw [ht, Option.some.injEq] at hval2
            rw [hval2] at ht2
            exact ht2
        have hfinal := tfields_fixpoint cfg hcfg out [] hdisj hnd2 hrm2 hproto2 hfix2
        refine ⟨.obj out, by simp only [transformJsonSchema, hout], ?_⟩
        simp only [transformJsonSchema, hfinal]
        simp
  exact main (sizeOf s) s le_rfl hs

/-- Witness for C3 with a removal-only configuration on a prototype-key-free schema. -/
theorem c3_witness :
    protoFree (.obj [("$ref", .str "x"), ("a", .num 1)]) = true ∧
    ∃ t, transformJsonSchema (SchemaCfg.mk ["$ref"] [])
        (.obj [("$ref", .str "x"), ("a", .num 1)]) = some t ∧
      transformJsonSchema (SchemaCfg.mk ["$ref"] []) t = some t :=
  ⟨by decide,
   c3_amended_idempotent_without_transforms (SchemaCfg.mk ["$ref"] []) rfl
     (.obj [("$ref", .str "x"), ("a", .num 1)]) (by decide)⟩

-- ===========================================================================
-- C4 — const → enum rewriting
-- ===========================================================================

/-- C4 counterexample: `{const: {const: 5}}`.  The inner value of a `const` keyword is
merged into the output verbatim, so the output still contains a `const` key although the
claim asserts `"const"` occurs nowhere in the output. -/
theorem c4_counterexample :
    hasKeyDeep "const" (.obj [("const", .obj [("const", .num 5)])]) = true ∧
    transformJsonSchema defaultSchemaCfg (.obj [("const", .obj [("const", .num 5)])]) =
      some (.obj [("enum", .arr [.obj [("const", .num 5)]])]) ∧
    hasKeyDeep "const" (.obj [("enum", .arr [.obj [("const", .num 5)]])]) = true :=
  ⟨rfl, rfl, rfl⟩

theorem tfields_preserves_enum :
    ∀ (fs acc out : List (String × Json)) (y : Json),
      transformJsonFields defaultSchemaCfg fs acc = some out →
      ("enum", y) ∈ acc → "enum" ∉ fs.map Prod.fst → "const" ∉ fs.map Prod.fst →
      (∀ q ∈ fs, (q : String × Json).1 ∉ protoPropNames) →
      ("enum", y) ∈ out := by
  intro fs
  induction fs with
  | nil =>
    intro acc out y hout hy _ _ _
    simp only [transformJsonFields, Option.some.injEq] at hout
    subst hout
    exact hy
  | cons q rest ih =>
    intro acc out y hout hy henum hconst hkeys
    obtain ⟨k, v⟩ := q
    simp only [List.map_cons, List.mem_cons, not_or] at henum hconst
    have hkenum : k ≠ "enum" := fun hh => henum.1 hh.symm
    have hkconst : k ≠ "const" := fun hh => hconst.1 hh.symm
    have hkp : k ∉ protoPropNames := hkeys (k, v) (List.mem_cons_self _ _)
    have hktail : ∀ q ∈ rest, (q : String × Json).1 ∉ protoPropNames :=
      fun q hq => hkeys q (List.mem_cons_of_mem _ hq)
    clear hkeys
    have hpres : ∀ x : Json, ("enum", y) ∈ setField acc k x :=
      fun x => setField_mem_preserve acc k "enum" x y hkenum hy
    by_cases hrm : k ∈ defaultSchemaCfg.keywordsToRemove
    · simp only [transformJsonFields, if_pos hrm] at hout
      exact ih acc out y hout hy henum.2 hconst.2 hktail
    · cases v with
      | arr xs =>
        simp only [transformJsonFields, if_neg hrm, lookup_default_none k hkconst,
          if_neg hkp] at hout
        cases hw : transformJsonSchema defaultSchemaCfg (.arr xs) with
        | none =>
          simp only [hw] at hout
          exact Option.noConfusion hout
        | some w =>
          simp only [hw] at hout
          exact ih _ out y hout (hpres w) henum.2 hconst.2 hktail
      | obj gs =>
        simp only [transformJsonFields, if_neg hrm, lookup_default_none k hkconst,
          if_neg hkp] at hout
        cases hw : transformJsonSchema defaultSchemaCfg (.obj gs) with
        | none =>
          simp only [hw] at hout
          exact Option.noConfusion hout
        | some w =>
          simp only [hw] at hout
          exact ih _ out y hout (hpres w) henum.2 hconst.2 hktail
      | null =>
        simp only [transformJsonFields, if_neg hrm, lookup_default_none k hkconst,
          if_neg hkp] at hout
        exact ih _ out y hout (hpres _) henum.2 hconst.2 hktail
      | bool b =>
        simp only [transformJsonFields, if_neg hrm, lookup_default_none k hkconst,
          if_neg hkp] at hout
        exact ih _ out y hout (hpres _) henum.2 hconst.2 hktail
      | num n =>
        simp only [transformJsonFields, if_neg hrm, lookup_default_none k hkconst,
          if_neg hkp] at hout
        exact ih _ out y hout (hpres _) henum.2 hconst.2 hktail
      | str s1 =>
        simp only [transformJsonFields, if_neg hrm, lookup_default_none k hkconst,
          if_neg hkp] at hout
        exact ih _ out y hout (hpres _) henum.2 hconst.2 hktail

theorem tfields_enum_of_const :
    ∀ (fs acc out : List (String × Json)) (v : Json),
      transformJsonFields defaultSchemaCfg fs acc = some out →
      (fs.map Prod.fst).Nodup → "enum" ∉ fs.map Prod.fst → ("const", v) ∈ fs →
      (∀ q ∈ fs, (q : String × Json).1 ∉ protoPropNames) →
      ("enum", .arr [v]) ∈ out := by
  intro fs
  induction fs with
  | nil =>
    intro acc out v _ _ _ hmem _
    simp at hmem
  | cons q rest ih =>
    intro acc out v hout hnd henum hmem hkeys
    obtain ⟨k, w⟩ := q
    simp only [List.map_cons, List.nodup_cons] at hnd
    simp only [List.map_cons, List.mem_cons, not_or] at henum
    have hkp : k ∉ protoPropNames := hkeys (k, w) (List.mem_cons_self _ _)
    have hktail : ∀ q ∈ rest, (q : String × Json).1 ∉ protoPropNames :=
      fun q hq => hkeys q (List.mem_cons_of_mem _ hq)
    clear hkeys
    rcases List.mem_cons.mp hmem with heq | hm
    · cases heq
      have hrm : "const" ∉ defaultSchemaCfg.keywordsToRemove := by decide
      have hlk : defaultSchemaCfg.keywordTransforms.lookup "const" =
          some (fun u => [("enum", Json.arr [u])]) := rfl
      simp only [transformJsonFields, if_neg hrm, hlk, assignAll] at hout
      exact tfields_preserves_enum rest _ out _ hout
        (setField_self_mem acc "enum" (.arr [v])) henum.2 hnd.1 hktail
    · have hkconst : k ≠ "const" := by
        intro hh
        exact hnd.1 (hh ▸ List.mem_map.mpr ⟨("const", v), hm, rfl⟩)
      clear hmem
      by_cases hrm : k ∈ defaultSchemaCfg.keywordsToRemove
      · simp only [transformJsonFields, if_pos hrm] at hout
        exact ih acc out v hout hnd.2 henum.2 hm hktail
      · cases w with
        | arr xs =>
          simp only [transformJsonFields, if_neg hrm, lookup_default_none k hkconst,
            if_neg hkp] at hout
          cases hw : transformJsonSchema defaultSchemaCfg (.arr xs) with
          | none =>
            simp only [hw] at hout
            exact Option.noConfusion hout
          | some w2 =>
            simp only [hw] at hout
            exact ih _ out v hout hnd.2 henum.2 hm hktail
        | obj gs =>
          simp only [transformJsonFields, if_neg hrm, lookup_default_none k hkconst,
            if_neg hkp] at hout
          cases hw : transformJsonSchema defaultSchemaCfg (.obj gs) with
          | none =>
            simp only [hw] at hout
            exact Option.noConfusion hout
          | some w2 =>
            simp only [hw] at hout
            exact ih _ out v hout hnd.2 henum.2 hm hktail
        | null =>
          simp only [transformJsonFields, if_neg hrm, lookup_default_none k hkconst,
            if_neg hkp] at hout
          exact ih _ out v hout hnd.2 henum.2 hm hktail
        | bool b =>
          simp only [transformJsonFields, if_neg hrm, lookup_default_none k hkconst,
            if_neg hkp] at hout
          exact ih _ out v hout hnd.2 henum.2 hm hktail
        | num n =>
          simp only [transformJsonFields, if_neg hrm, lookup_default_none k hkconst,
            if_neg hkp] at hout
          exact ih _ out v hout hnd.2 henum.2 hm hktail
        | str s1 =>
          simp only [transformJsonFields, if_neg hrm, lookup_default_none k hkconst,
            if_neg hkp] at hout
          exact ih _ out v hout hnd.2 henum.2 hm hktail

theorem tfields_mem_default :
    ∀ (fs acc out : List (String × Json)) (p : String × Json),
      transformJsonFields defaultSchemaCfg fs acc = some out →
      (∀ q ∈ fs, (q : String × Json).1 ∉ protoPropNames) →
      p ∈ out →
      p ∈ acc ∨
      (∃ q ∈ fs, q.1 ≠ "const" ∧ p.1 = q.1 ∧
        transformJsonSchema defaultSchemaCfg q.2 = some p.2) ∨
      (∃ q ∈ fs, q.1 = "const" ∧ p = ("enum", .arr [q.2])) := by
  intro fs
  induction fs with
  | nil =>
    intro acc out p hout _ hp
    simp only [transformJsonFields, Option.some.injEq] at hout
    subst hout
    exact Or.inl hp
  | cons q rest ih =>
    intro acc out p hout hkeys hp
    obtain ⟨k, v⟩ := q
    have hkp : k ∉ protoPropNames := hkeys (k, v) (List.mem_cons_self _ _)
    have hktail : ∀ q ∈ rest, (q : String × Json).1 ∉ protoPropNames :=
      fun q hq => hkeys q (List.mem_cons_of_mem _ hq)
    clear hkeys
    have lift : p ∈ acc ∨
        (∃ q2 ∈ rest, q2.1 ≠ "const" ∧ p.1 = q2.1 ∧
          transformJsonSchema defaultSchemaCfg q2.2 = some p.2) ∨
        (∃ q2 ∈ rest, q2.1 = "const" ∧ p = ("enum", .arr [q2.2])) →
        p ∈ acc ∨
        (∃ q2 ∈ (k, v) :: rest, q2.1 ≠ "const" ∧ p.1 = q2.1 ∧
          transformJsonSchema defaultSchemaCfg q2.2 = some p.2) ∨
        (∃ q2 ∈ (k, v) :: rest, q2.1 = "const" ∧ p = ("enum", .arr [q2.2])) := by
      rintro (h | ⟨q2, hq2, h1, h2, h3⟩ | ⟨q2, hq2, h1, h2⟩)
      · exact Or.inl h
      · exact Or.inr (Or.inl ⟨q2, List.mem_cons_of_mem _ hq2, h1, h2, h3⟩)
      · exact Or.inr (Or.inr ⟨q2, List.mem_cons_of_mem _ hq2, h1, h2⟩)
    by_cases hrm : k ∈ defaultSchemaCfg.keywordsToRemove
    · simp only [transformJsonFields, if_pos hrm] at hout
      exact lift (ih acc out p hout hktail hp)
    · by_cases hk : k = "const"
      · subst hk
        have hlk : defaultSchemaCfg.keywordTransforms.lookup "const" =
            some (fun u => [("enum", Json.arr [u])]) := rfl
        simp only [transformJsonFields, if_neg hrm, hlk, assignAll] at hout
        rcases ih _ out p hout hktail hp with h | h
        · rcases setField_mem acc "enum" (.arr [v]) p h with h2 | h2
          · exact Or.inl h2
          · exact Or.inr (Or.inr ⟨("const", v), List.mem_cons_self _ _, rfl, h2⟩)
        · exact lift (Or.inr h)
      · cases v with
        | arr xs =>
          simp only [transformJsonFields, if_neg hrm, lookup_default_none k hk,
            if_neg hkp] at hout
          cases hw : transformJsonSchema defaultSchemaCfg (.arr xs) with
          | none =>
            simp only [hw] at hout
            exact Option.noConfusion hout
          | some w =>
            simp only [hw] at hout
            rcases ih _ out p hout hktail hp with h | h
            · rcases setField_mem acc k w p h with h2 | h2
              · exact Or.inl h2
              · exact Or.inr (Or.inl ⟨(k, .arr xs), List.mem_cons_self _ _, hk,
                  by rw [h2], by rw [h2]; exact hw⟩)
            · exact lift (Or.inr h)
        | obj gs =>
          simp only [transformJsonFields, if_neg hrm, lookup_default_none k hk,
            if_neg hkp] at hout
          cases hw : transformJsonSchema defaultSchemaCfg (.obj gs) with
          | none =>
            simp only [hw] at hout
            exact Option.noConfusion hout
          | some w =>
            simp only [hw] at hout
            rcases ih _ out p hout hktail hp with h | h
            · rcases setField_mem acc k w p h with h2 | h2
              · exact Or.inl h2
              · exact Or.inr (Or.inl ⟨(k, .obj gs), List.mem_cons_self _ _, hk,
                  by rw [h2], by rw [h2]; exact hw⟩)
            · exact lift (Or.inr h)
        | null =>
          simp only [transformJsonFields, if_neg hrm, lookup_default_none k hk,
            if_neg hkp] at hout
          rcases ih _ out p hout hktail hp with h | h
          · rcases setField_mem acc k .null p h with h2 | h2
            · exact Or.inl h2
            · exact Or.inr (Or.inl ⟨(k, .null), List.mem_cons_self _ _, hk,
                by rw [h2], by rw [h2]; rfl⟩)
          · exact lift (Or.inr h)
        | bool b =>
          simp only [transformJsonFields, if_neg hrm, lookup_default_none k hk,
            if_neg hkp] at hout
          rcases ih _ out p hout hktail hp with h | h
          · rcases setField_mem acc k (.bool b) p h with h2 | h2
            · exact Or.inl h2
            · exact Or.inr (Or.inl ⟨(k, .bool b), List.mem_cons_self _ _, hk,
                by rw [h2], by rw [h2]; rfl⟩)
          · exact lift (Or.inr h)
        | num n =>
          simp only [transformJsonFields, if_neg hrm, lookup_default_none k hk,
            if_neg hkp] at hout
          rcases ih _ out p hout hktail hp with h | h
          · rcases setField_mem acc k (.num n) p h with h2 | h2
            · exact Or.inl h2
            · exact Or.inr (Or.inl ⟨(k, .num n), List.mem_cons_self _ _, hk,
                by rw [h2], by rw [h2]; rfl⟩)
          · exact lift (Or.inr h)
        | str s1 =>
          simp only [transformJsonFields, if_neg hrm, lookup_default_none k hk,
            if_neg hkp] at hout
          rcases ih _ out p hout hktail hp with h | h
          · rcases setField_mem acc k (.str s1) p h with h2 | h2
            · exact Or.inl h2
            · exact Or.inr (Or.inl ⟨(k, .str s1), List.mem_cons_self _ _, hk,
                by rw [h2], by rw [h2]; rfl⟩)
          · exact lift (Or.inr h)

theorem transform_no_const (s : Json) (hc : constValuesClean s = true)
    (hpf : protoFree s = true) :
    ∃ out, transformJsonSchema defaultSchemaCfg s = some out ∧
      hasKeyDeep "const" out = false := by
  have main : ∀ (N : Nat) (u : Json), sizeOf u ≤ N → constValuesClean u = true →
      protoFree u = true →
      ∃ out, transformJsonSchema defaultSchemaCfg u = some out ∧
        hasKeyDeep "const" out = false := by
    intro N
    induction N with
    | zero =>
      intro u hu _ _
      exfalso
      cases u <;> simp at hu
    | succ N ihN =>
      intro u hu hc hp
      cases u with
      | null => exact ⟨.null, rfl, rfl⟩
      | bool b => exact ⟨.bool b, rfl, rfl⟩
      | num n => exact ⟨.num n, rfl, rfl⟩
      | str s1 => exact ⟨.str s1, rfl, rfl⟩
      | arr xs =>
        simp only [constValuesClean] at hc
        simp only [protoFree] at hp
        have hsz : ∀ x ∈ xs, sizeOf x ≤ N := by
          intro x hx
          have h1 : sizeOf x < sizeOf xs := List.sizeOf_lt_of_mem hx
          have h2 : sizeOf (Json.arr xs) = 1 + sizeOf xs := by simp
          omega
        have hval : ∀ x ∈ xs, ∃ w, transformJsonSchema defaultSchemaCfg x = some w := by
          intro x hx
          obtain ⟨o, ho, _⟩ := ihN x (hsz x hx) (cleanList_mem xs hc x hx)
            (protoFreeList_mem xs hp x hx)
          exact ⟨o, ho⟩
        obtain ⟨ys, hys⟩ := tlist_total defaultSchemaCfg xs hval
        refine ⟨.arr ys, by simp only [transformJsonSchema, hys], ?_⟩
        simp only [hasKeyDeep]
        refine hasKeyDeepList_false "const" ys ?_
        intro y hy
        obtain ⟨x, hx, hxy⟩ := tlist_mem defaultSchemaCfg xs ys hys y hy
        obtain ⟨o, ho, hclean⟩ := ihN x (hsz x hx) (cleanList_mem xs hc x hx)
          (protoFreeList_mem xs hp x hx)
        rw [ho, Option.some.injEq] at hxy
        rw [hxy] at hclean
        exact hclean
      | obj fs =>
        simp only [constValuesClean] at hc
        simp only [protoFree] at hp
        have hsz : ∀ q ∈ fs, sizeOf (q : String × Json).2 ≤ N := by
          intro q hq
          have h1 : sizeOf q < sizeOf fs := List.sizeOf_lt_of_mem hq
          have h2 : sizeOf q.2 < sizeOf q := by
            obtain ⟨a, b⟩ := q
            simp
          have h3 : sizeOf (Json.obj fs) = 1 + sizeOf fs := by simp
          omega
        have hkey : ∀ q ∈ fs, (q : String × Json).1 ∉ protoPropNames :=
          fun q hq => (protoFreeFields_mem fs hp q hq).1
        have hval : ∀ q ∈ fs, ∃ w, transformJsonSchema defaultSchemaCfg
            (q : String × Json).2 = some w :=
          fun q hq =>
            transform_total defaultSchemaCfg q.2 ((protoFreeFields_mem fs hp q hq).2)
        obtain ⟨out, hout⟩ := tfields_total defaultSchemaCfg fs [] hval hkey
        refine ⟨.obj out, by simp only [transformJsonSchema, hout], ?_⟩
        simp only [hasKeyDeep]
        refine hasKeyDeepFields_false "const" out ?_
        intro p hpmem
        rcases tfields_mem_default fs [] out p hout hkey hpmem with
          h | ⟨q, hq, hkne, hkeq, hvq⟩ | ⟨q, hq, hkc, hpeq⟩
        · simp at h
        · constructor
          · rw [hkeq]
            exact hkne
          · obtain ⟨o, ho, hclean⟩ := ihN q.2 (hsz q hq)
              ((cleanFields_mem fs hc q hq).2 hkne)
              ((protoFreeFields_mem fs hp q hq).2)
            rw [ho, Option.some.injEq] at hvq
            rw [hvq] at hclean
            exact hclean
        · have hv : hasKeyDeep "const" q.2 = false := (cleanFields_mem fs hc q hq).1 hkc
          rw [hpeq]
          refine ⟨?_, ?_⟩
          · intro hh
            have hne : ¬ ("enum" : String) = "const" := by decide
            exact hne hh
          · simp [hasKeyDeep, hasKeyDeepList, hv]
  exact main (sizeOf s) s le_rfl hc hpf

/-- C4 (amended): under the built-in configuration, (i) whenever every value attached to
a `const` key in the input is itself free of `const` keys AND no object key anywhere in
the input is an `Object.prototype` property name, the transform succeeds and its output
contains no `const` key anywhere; and (ii) on such an object with distinct keys not
already including `enum`, a `("const", v)` member really is replaced by an
`("enum", [v])` member of the rebuilt object.  Both provisos are forced: a `const`
value is merged into the output verbatim without recursion (see the counterexample),
and a key such as `constructor` hits the inherited-member branch of
`key in keywordTransforms`, which merges its value's raw properties (possibly
containing `const`) or throws. -/
theorem c4_amended_const_to_enum (s : Json) (fs : List (String × Json)) (v : Json) :
    (constValuesClean s = true → protoFree s = true →
      ∃ out, transformJsonSchema defaultSchemaCfg s = some out ∧
        hasKeyDeep "const" out = false) ∧
    (protoFree (.obj fs) = true → (fs.map Prod.fst).Nodup →
      "enum" ∉ fs.map Prod.fst → ("const", v) ∈ fs →
      ∃ gs, transformJsonSchema defaultSchemaCfg (.obj fs) = some (.obj gs) ∧
        ("enum", .arr [v]) ∈ gs) := by
  constructor
  · intro hc hp
    exact transform_no_const s hc hp
  · intro hp hnd henum hmem
    have hpf : protoFreeFields fs = true := by simpa [protoFree] using hp
    have hkey : ∀ q ∈ fs, (q : String × Json).1 ∉ protoPropNames :=
      fun q hq => (protoFreeFields_mem fs hpf q hq).1
    have hval : ∀ q ∈ fs, ∃ w, transformJsonSchema defaultSchemaCfg
        (q : String × Json).2 = some w :=
      fun q hq => transform_total defaultSchemaCfg q.2 ((protoFreeFields_mem fs hpf q hq).2)
    obtain ⟨out, hout⟩ := tfields_total defaultSchemaCfg fs [] hval hkey
    refine ⟨out, by simp only [transformJsonSchema, hout], ?_⟩
    exact tfields_enum_of_const fs [] out v hout hnd henum hmem hkey

/-- Witness for C4 on the schema `\x7bconst: "v", a: 1\x7d`. -/
theorem c4_witness :
    (constValuesClean (.obj [("const", .str "v"), ("a", .num 1)]) = true ∧
      protoFree (.obj [("const", .str "v"), ("a", .num 1)]) = true ∧
      ∃ out, transformJsonSchema defaultSchemaCfg
          (.obj [("const", .str "v"), ("a", .num 1)]) = some out ∧
        hasKeyDeep "const" out = false) ∧
    (∃ gs, transformJsonSchema defaultSchemaCfg
        (.obj [("const", .str "v"), ("a", .num 1)]) = some (.obj gs) ∧
      ("enum", .arr [.str "v"]) ∈ gs) :=
  ⟨⟨rfl, by decide,
    (c4_amended_const_to_enum (.obj [("const", .str "v"), ("a", .num 1)])
      [("const", .str "v"), ("a", .num 1)] (.str "v")).1 rfl (by decide)⟩,
   (c4_amended_const_to_enum (.obj [("const", .str "v"), ("a", .num 1)])
      [("const", .str "v"), ("a", .num 1)] (.str "v")).2 (by decide) (by decide)
     (by decide) (by simp)⟩

-- ===========================================================================
-- C10 — stream framing and CRLF normalization
-- ===========================================================================

/-- C10 counterexample: the chunks `"a\r"` and `"\n\nb\n\n"`.  CRLF normalization is
applied per decoded chunk, so the `"\r\n"` pair straddling the chunk boundary is NOT
rewritten and a carriage return survives into the emitted output, although a global
rewrite of the decoded input would remove it. -/
theorem c10_counterexample :
    (runPull ⟨false⟩ streamPatchConfig [strL "a\r", strL "\n\nb\n\n"]
        ⟨[], initStreamState⟩ none).1 = [strL "a\r\n\n", strL "b\n\n"] ∧
    replaceCRLF (strL "a\r" ++ strL "\n\nb\n\n") = strL "a\n\nb\n\n" ∧
    '\r' ∈ strL "a\r\n\n" ∧ '\r' ∉ strL "a\n\nb\n\n" :=
  ⟨rfl, rfl, by decide, by decide⟩

theorem findNN_decomp :
    ∀ (l ev rest : List Char), findNN l = some (ev, rest) →
      l = ev ++ '\n' :: '\n' :: rest := by
  intro l
  induction l with
  | nil =>
    intro ev rest h
    simp [findNN] at h
  | cons c1 t ih =>
    intro ev rest h
    cases t with
    | nil => simp [findNN] at h
    | cons c2 t2 =>
      by_cases hnn : c1 = '\n' ∧ c2 = '\n'
      · simp only [findNN, if_pos hnn, Option.some.injEq, Prod.mk.injEq] at h
        rw [← h.1, hnn.1, hnn.2, h.2]
        rfl
      · simp only [findNN, if_neg hnn, Option.map_eq_some'] at h
        obtain ⟨⟨b, a⟩, hfind, hba⟩ := h
        simp only [Prod.mk.injEq] at hba
        rw [← hba.1, ← hba.2]
        have := ih b a hfind
        simp [this]

theorem findNN_append_some :
    ∀ (l₁ l₂ ev rest : List Char), findNN l₁ = some (ev, rest) →
      findNN (l₁ ++ l₂) = some (ev, rest ++ l₂) := by
  intro l₁
  induction l₁ with
  | nil =>
    intro l₂ ev rest h
    simp [findNN] at h
  | cons c1 t ih =>
    intro l₂ ev rest h
    cases t with
    | nil => simp [findNN] at h
    | cons c2 t2 =>
      by_cases hnn : c1 = '\n' ∧ c2 = '\n'
      · simp only [findNN, if_pos hnn, Option.some.injEq, Prod.mk.injEq] at h
        obtain ⟨h1, h2⟩ := h
        subst h1
        subst h2
        simp [List.cons_append, findNN, if_pos hnn]
      · simp only [findNN, if_neg hnn, Option.map_eq_some'] at h
        obtain ⟨⟨b, a⟩, hfind, hba⟩ := h
        simp only [Prod.mk.injEq] at hba
        have hrec := ih l₂ b a hfind
        simp only [List.cons_append, findNN, if_neg hnn]
        have hrec2 : findNN (c2 :: t2.append l₂) = some (b, a ++ l₂) := hrec
        rw [hrec2]
        simp [← hba.1, ← hba.2]

theorem splitEventsF_congr :
    ∀ (f1 f2 : Nat) (l : List Char), l.length ≤ f1 → l.length ≤ f2 →
      splitEventsF f1 l = splitEventsF f2 l := by
  intro f1
  induction f1 with
  | zero =>
    intro f2 l h1 h2
    have : l = [] := List.eq_nil_of_length_eq_zero (Nat.le_zero.mp h1)
    subst this
    cases f2 with
    | zero => rfl
    | succ f2 => simp [splitEventsF, findNN]
  | succ f1 ih =>
    intro f2 l h1 h2
    cases f2 with
    | zero =>
      have : l = [] := List.eq_nil_of_length_eq_zero (Nat.le_zero.mp h2)
      subst this
      simp [splitEventsF, findNN]
    | succ f2 =>
      cases hf : findNN l with
      | none => simp [splitEventsF, hf]
      | some p =>
        obtain ⟨ev, rest⟩ := p
        have hdec := findNN_decomp l ev rest hf
        have hlen : rest.length + 2 ≤ l.length := by
          rw [hdec]
          simp
        have hr1 : rest.length ≤ f1 := by omega
        have hr2 : rest.length ≤ f2 := by omega
        simp only [splitEventsF, hf]
        rw [ih f2 rest hr1 hr2]

theorem splitEvents_of_none (l : List Char) (h : findNN l = none) :
    splitEvents l = ([], l) := by
  cases l with
  | nil => rfl
  | cons c t =>
    simp only [splitEvents, List.length_cons, splitEventsF, h]

theorem splitEvents_step (l ev rest : List Char) (h : findNN l = some (ev, rest)) :
    splitEvents l = ((ev :: (splitEvents rest).1), (splitEvents rest).2) := by
  have hdec := findNN_decomp l ev rest h
  have hlen : rest.length + 2 ≤ l.length := by
    rw [hdec]
    simp
  cases hl : l.length with
  | zero =>
    exfalso
    omega
  | succ n =>
    have : splitEvents l = splitEventsF (n + 1) l := by rw [splitEvents, hl]
    rw [this]
    simp only [splitEventsF, h]
    have : splitEventsF n rest = splitEvents rest :=
      splitEventsF_congr n rest.length rest (by omega) le_rfl
    rw [this]

theorem splitEvents_remainder_none :
    ∀ (l : List Char), findNN (splitEvents l).2 = none := by
  have main : ∀ (N : Nat) (l : List Char), l.length ≤ N →
      findNN (splitEvents l).2 = none := by
    intro N
    induction N with
    | zero =>
      intro l hl
      have : l = [] := List.eq_nil_of_length_eq_zero (Nat.le_zero.mp hl)
      subst this
      rfl
    | succ N ihN =>
      intro l hl
      cases hf : findNN l with
      | none => rw [splitEvents_of_none l hf]; exact hf
      | some p =>
        obtain ⟨ev, rest⟩ := p
        rw [splitEvents_step l ev rest hf]
        have hdec := findNN_decomp l ev rest hf
        have hlen : rest.length + 2 ≤ l.length := by
          rw [hdec]
          simp
        exact ihN rest (by omega)
  exact fun l => main l.length l le_rfl

theorem splitEvents_append :
    ∀ (l₁ l₂ : List Char),
      splitEvents (l₁ ++ l₂) =
        ((splitEvents l₁).1 ++ (splitEvents ((splitEvents l₁).2 ++ l₂)).1,
         (splitEvents ((splitEvents l₁).2 ++ l₂)).2) := by
  have main : ∀ (N : Nat) (l₁ l₂ : List Char), l₁.length ≤ N →
      splitEvents (l₁ ++ l₂) =
        ((splitEvents l₁).1 ++ (splitEvents ((splitEvents l₁).2 ++ l₂)).1,
         (splitEvents ((splitEvents l₁).2 ++ l₂)).2) := by
    intro N
    induction N with
    | zero =>
      intro l₁ l₂ hl
      have : l₁ = [] := List.eq_nil_of_length_eq_zero (Nat.le_zero.mp hl)
      subst this
      simp [splitEvents_of_none [] rfl]
    | succ N ihN =>
      intro l₁ l₂ hl
      cases hf : findNN l₁ with
      | none =>
        rw [splitEvents_of_none l₁ hf]
        simp
      | some p =>
        obtain ⟨ev, rest⟩ := p
        have hdec := findNN_decomp l₁ ev rest hf
        have hlen : rest.length + 2 ≤ l₁.length := by
          rw [hdec]
          simp
        have hcat := findNN_append_some l₁ l₂ ev rest hf
        rw [splitEvents_step _ _ _ hcat, splitEvents_step _ _ _ hf,
          ihN rest l₂ (by omega)]
        simp
  exact fun l₁ l₂ => main l₁.length l₁ l₂ le_rfl

theorem processEvents_append (cfg : PatchCfg) (spc : StreamPatchConfig) :
    ∀ (e1 e2 : List (List Char)) (st : StreamState),
      processEvents cfg spc st (e1 ++ e2) =
        ((processEvents cfg spc (processEvents cfg spc st e1).1 e2).1,
         (processEvents cfg spc st e1).2 ++
           (processEvents cfg spc (processEvents cfg spc st e1).1 e2).2) := by
  intro e1
  induction e1 with
  | nil =>
    intro e2 st
    simp [processEvents]
  | cons ev rest ih =>
    intro e2 st
    simp only [List.cons_append, processEvents]
    have ih2 : processEvents cfg spc (transformEvent cfg spc st ev).1 (rest.append e2) =
        ((processEvents cfg spc
            (processEvents cfg spc (transformEvent cfg spc st ev).1 rest).1 e2).1,
          (processEvents cfg spc (transformEvent cfg spc st ev).1 rest).2 ++
            (processEvents cfg spc
              (processEvents cfg spc (transformEvent cfg spc st ev).1 rest).1 e2).2) :=
      ih e2 (transformEvent cfg spc st ev).1
    rw [ih2]
    simp [List.append_assoc]

theorem runPull_eq_pipe (cfg : PatchCfg) (spc : StreamPatchConfig) :
    ∀ (chunks : List (List Char)) (b : List Char) (st : StreamState)
      (shared : Option String) (evs : List (List Char)) (rem : List Char)
      (st' : StreamState) (outs : List (List Char)),
      findNN b = none →
      splitEvents (b ++ (chunks.map replaceCRLF).flatten) = (evs, rem) →
      processEvents cfg spc st evs = (st', outs) →
      runPull cfg spc chunks ⟨b, st⟩ shared =
        (if ¬ rem.all isWSJS then
          match (transformEvent cfg spc st' rem).2 with
          | some o => (outs ++ [o ++ strL "\n\n"],
              handoffSignature cfg st'.thoughtSignature shared)
          | none => (outs, handoffSignature cfg st'.thoughtSignature shared)
        else (outs, handoffSignature cfg st'.thoughtSignature shared)) := by
  intro chunks
  induction chunks with
  | nil =>
    intro b st shared evs rem st' outs hb hsplit hproc
    have h0 : (List.map replaceCRLF ([] : List (List Char))).flatten = [] := rfl
    rw [h0, List.append_nil, splitEvents_of_none b hb] at hsplit
    simp only [Prod.mk.injEq] at hsplit
    obtain ⟨rfl, rfl⟩ := hsplit
    simp only [processEvents, Prod.mk.injEq] at hproc
    obtain ⟨rfl, rfl⟩ := hproc
    by_cases hws : b.all isWSJS = true
    · simp [runPull, hws]
    · cases hto : (transformEvent cfg spc st b).2 with
      | none => simp [runPull, hws, hto]
      | some o => simp [runPull, hws, hto]
  | cons c rest ih =>
    intro b st shared evs rem st' outs hb hsplit hproc
    have hflat : (List.map replaceCRLF (c :: rest)).flatten =
        replaceCRLF c ++ (List.map replaceCRLF rest).flatten := by simp
    rw [hflat, ← List.append_assoc,
      splitEvents_append (b ++ replaceCRLF c) ((List.map replaceCRLF rest).flatten)]
      at hsplit
    rcases h1 : splitEvents (b ++ replaceCRLF c) with ⟨evs1, buf1⟩
    rw [h1] at hsplit
    rcases h2 : splitEvents (buf1 ++ (List.map replaceCRLF rest).flatten) with ⟨evs2, rem2⟩
    rw [h2] at hsplit
    simp only [Prod.mk.injEq] at hsplit
    obtain ⟨rfl, rfl⟩ := hsplit
    rw [processEvents_append cfg spc evs1 evs2 st] at hproc
    rcases hp1 : processEvents cfg spc st evs1 with ⟨st1, outs1⟩
    rw [hp1] at hproc
    rcases hp2 : processEvents cfg spc st1 evs2 with ⟨st2, outs2⟩
    rw [hp2] at hproc
    simp only [Prod.mk.injEq] at hproc
    obtain ⟨rfl, rfl⟩ := hproc
    have hbn : findNN buf1 = none := by
      have hrn := splitEvents_remainder_none (b ++ replaceCRLF c)
      rw [h1] at hrn
      exact hrn
    have ihEq := ih buf1 st1 shared evs2 rem2 st2 outs2 hbn h2 hp2
    by_cases hws : rem2.all isWSJS = true
    · simp [runPull, h1, hp1, ihEq, hws]
    · cases hto : (transformEvent cfg spc st2 rem2).2 with
      | none => simp [runPull, h1, hp1, ihEq, hws, hto]
      | some o => simp [runPull, h1, hp1, ihEq, hws, hto]

/-- C10 (amended): CRLF normalization is applied to each decoded chunk separately — NOT
to the decoded input as a whole, so a `"\r\n"` split across two chunks survives (see the
counterexample) — and with that per-chunk normalization the incremental pull loop is
equivalent to the reference pipeline that splits the whole normalized text at `"\n\n"`
once and re-emits every surviving event terminated by exactly one appended `"\n\n"`,
finishing with the flush of a non-blank trailing remainder. -/
theorem c10_amended_framing (cfg : PatchCfg) (spc : StreamPatchConfig)
    (chunks : List (List Char)) (st0 : StreamState) (shared : Option String) :
    runPull cfg spc chunks ⟨[], st0⟩ shared = specPipeline cfg spc chunks st0 shared := by
  rcases hs : splitEvents ((chunks.map replaceCRLF).flatten) with ⟨evs, rem⟩
  rcases hp : processEvents cfg spc st0 evs with ⟨st', outs⟩
  have hmain := runPull_eq_pipe cfg spc chunks [] st0 shared evs rem st' outs rfl
    (by simpa using hs) hp
  rw [hmain]
  by_cases hws : rem.all isWSJS = true
  · simp [specPipeline, hs, hp, hws]
  · cases hto : (transformEvent cfg spc st' rem).2 with
    | none => simp [specPipeline, hs, hp, hws, hto]
    | some o => simp [specPipeline, hs, hp, hws, hto]
